import Mathlib

/-
Verification of the statistical aggregation engine of the Forward-tester
repository (src/services/analysisService.ts), against its natural-language
specification.

The TypeScript source is embedded shallowly:
  * JS numbers are modelled by ℚ (all the aggregation arithmetic is exact
    rational arithmetic on the inputs considered by the spec);
  * JS `Map` (insertion-ordered, update-in-place) is modelled by an
    association list with update-in-place / append-at-end semantics;
  * JS `Set` (insertion-ordered, first occurrence kept) is modelled by an
    insertion-order deduplication function;
  * JS `Array.prototype.sort` (stable) is modelled by `List.insertionSort`
    (stable) with the corresponding comparator;
  * `Date` parsing in `getSessionFromTime` is environment dependent and out
    of scope; the hour-to-session mapping (lines 19-31) is embedded as a
    function of the local hour.
-/

namespace FwdTest

open List

/-- JS `Math.round`: round half towards positive infinity. -/
def jsRound (x : ℚ) : ℤ := ⌊x + 1 / 2⌋

/-- JS truncation towards zero (the integer part used by the JS `%` operator). -/
def jsTrunc (x : ℚ) : ℤ := if x < 0 then -⌊-x⌋ else ⌊x⌋

/-- JS remainder operator `a % b` on numbers (sign follows the dividend). -/
def jsRem (a b : ℚ) : ℚ := a - b * (jsTrunc (a / b) : ℚ)

/-- types.ts: enum DeltaCategory. -/
inductive DeltaCategory where
  | HIGH_PLUS
  | HIGH
  | LOW
deriving DecidableEq

/-- The string value of each enum member in types.ts. -/
def DeltaCategory.label : DeltaCategory → String
  | .HIGH_PLUS => "High++"
  | .HIGH => "High"
  | .LOW => "Low"

/-- types.ts: direction: 'Long' | 'Short'. -/
inductive Direction where
  | long
  | short
deriving DecidableEq

/-- types.ts: interface Trade. `session?: string` is modelled as an option;
a JS `undefined` is `none`. Numeric fields are rationals. -/
structure Trade where
  id : String
  timestamp : String
  exitTimestamp : Option String
  session : Option String
  direction : Direction
  symbol : String
  marketRegime : String
  strategyNames : List String
  taLevels : List String
  delta : ℚ
  oi : ℚ
  entryType : String
  exitType : String
  mfe : ℚ
  mae : ℚ
  notes : Option String
  imageUrls : List String
deriving DecidableEq

/-- types.ts: interface AnalysisResult. -/
structure AnalysisResult where
  level : String
  avgMfe : ℚ
  avgMae : ℚ
  medianMfe : ℚ
  medianMae : ℚ
  count : ℕ
  score : ℚ
deriving DecidableEq

/-- types.ts: interface PairAnalysisResult. -/
structure PairAnalysisResult where
  pair : String × String
  avgMfe : ℚ
  count : ℕ
deriving DecidableEq

/-- A heatmap grid cell: { avgMfe, count }. -/
structure HeatCell where
  avgMfe : ℚ
  count : ℕ
deriving DecidableEq

/-- types.ts: interface HeatmapData. The grid is the JS `Map` keyed by the
composite string "Level::X", in insertion order. -/
structure HeatmapData where
  xLabels : List String
  yLabels : List String
  grid : List (String × HeatCell)
  maxMfe : ℚ
deriving DecidableEq

/-- Convenience constructor for trades in concrete examples; fields that the
aggregation engine never reads are fixed. -/
def mkTrade (taLevels : List String) (mfe mae delta oi : ℚ)
    (entryType : String) (session : Option String) : Trade :=
  { id := "", timestamp := "", exitTimestamp := none, session := session,
    direction := .long, symbol := "", marketRegime := "", strategyNames := [],
    taLevels := taLevels, delta := delta, oi := oi, entryType := entryType,
    exitType := "", mfe := mfe, mae := mae, notes := none, imageUrls := [] }

/-- analysisService.ts lines 5-11: getDeltaCategory. -/
def getDeltaCategory (delta : ℚ) : DeltaCategory :=
  if 20 < |delta| then .HIGH_PLUS
  else if 7 < |delta| then .HIGH
  else .LOW

/-- analysisService.ts lines 14-32, the hour-to-session cascade of
getSessionFromTime (the `Date` parsing on lines 15-16 is out of scope;
`hour` is the local hour 0-23 it produces). -/
def sessionFromHour (hour : ℕ) : String :=
  if 5 ≤ hour ∧ hour < 11 then "S1"
  else if 11 ≤ hour ∧ hour < 17 then "S2"
  else if 17 ≤ hour ∧ hour < 23 then "S3"
  else if 1 ≤ hour ∧ hour < 5 then "IS4"
  else "S4"

/-- analysisService.ts lines 43-49: formatDuration. -/
def formatDuration (minutes : ℚ) : String :=
  if minutes = 0 then "-"
  else if minutes < 60 then toString (jsRound minutes) ++ "m"
  else toString ⌊minutes / 60⌋ ++ "h " ++ toString (jsRound (jsRem minutes 60)) ++ "m"

/-- Modelled from the spec: the formatting formula the spec states for
durations of at least an hour -- "minutes-within-hour is
`round(total_minutes) mod 60`, hours is `floor(total_minutes/60)`".
Used only to compare the spec's formula with the code. -/
def formatDurationSpec (minutes : ℚ) : String :=
  if minutes = 0 then "-"
  else if minutes < 60 then toString (jsRound minutes) ++ "m"
  else toString ⌊minutes / 60⌋ ++ "h " ++ toString (jsRound minutes % 60) ++ "m"

/-- Modelled from the spec, amended: minutes-within-hour is
`round(total_minutes mod 60)` (which is 60 when the fractional final hour
rounds up), hours is `floor(total_minutes/60)`. -/
def formatDurationSpecAmended (minutes : ℚ) : String :=
  if minutes = 0 then "-"
  else if minutes < 60 then toString (jsRound minutes) ++ "m"
  else toString ⌊minutes / 60⌋ ++ "h "
    ++ toString (jsRound (minutes - 60 * (⌊minutes / 60⌋ : ℚ))) ++ "m"

/-- analysisService.ts lines 52-57: getOIPercentileValue. The JS index
`Math.min(Math.floor((percentile/100)*n), n-1)` is embedded with integer
arithmetic; for percentile ≥ 0 (the only range the spec admits) the index is
non-negative and in bounds, so `List.getD` coincides with JS indexing. -/
def getOIPercentileValue (trades : List Trade) (percentile : ℚ) : ℚ :=
  if trades = [] then 0
  else
    let ois := (trades.map (fun t => t.oi)).insertionSort (· ≤ ·)
    let index : ℤ := ⌊percentile / 100 * (ois.length : ℚ)⌋
    ois.getD (min index ((ois.length : ℤ) - 1)).toNat 0

/-- analysisService.ts lines 60-70: calculateMedian ([...values].sort copies;
here sorting is pure anyway). The source's locals `sorted` and
`mid = floor(sorted.length / 2)` are inlined. -/
def calculateMedian (values : List ℚ) : ℚ :=
  if values = [] then 0
  else if (values.insertionSort (· ≤ ·)).length % 2 ≠ 0 then
    (values.insertionSort (· ≤ ·)).getD ((values.insertionSort (· ≤ ·)).length / 2) 0
  else
    ((values.insertionSort (· ≤ ·)).getD
        ((values.insertionSort (· ≤ ·)).length / 2 - 1) 0 +
      (values.insertionSort (· ≤ ·)).getD
        ((values.insertionSort (· ≤ ·)).length / 2) 0) / 2

/-- Insertion-ordered deduplication: the sequence of distinct values of a JS
`Set` built by inserting the list elements left to right. -/
def jsSetDedup : List String → List String
  | [] => []
  | x :: xs => x :: (jsSetDedup xs).filter (fun y => decide (y ≠ x))

/-- The per-trade filter `trade.taLevels.filter(l => l !== 'None' && l !== '')`
shared by all the aggregators. -/
def activeLevels (t : Trade) : List String :=
  t.taLevels.filter (fun l => decide (l ≠ "None" ∧ l ≠ ""))

/-- The session label used for grouping: `trade.session || 'N/A'`. -/
def sessionOrNA (t : Trade) : String :=
  match t.session with
  | none => "N/A"
  | some s => if s = "" then "N/A" else s

/-- Lookup in a JS `Map` modelled as an association list (`Map.get`). -/
def alookup (k : String) : List (String × V) → Option V
  | [] => none
  | (k1, v) :: rest => if k1 = k then some v else alookup k rest

/-- Update in a JS `Map` modelled as an association list (`Map.set`):
update in place if present, append otherwise. -/
def aset (k : String) (v : V) : List (String × V) → List (String × V)
  | [] => [(k, v)]
  | (k1, v1) :: rest => if k1 = k then (k, v) :: rest else (k1, v1) :: aset k v rest

/-- The keys of an association list, in order. -/
def akeys (m : List (String × V)) : List String := m.map Prod.fst

/-- One `Map` update of the accumulate-into-map pattern shared by all the
aggregators: read the current entry (if any), combine the payload into it,
store it back under the same key. -/
def mapStep (combine : Option V → A → V) (m : List (String × V)) (u : String × A) :
    List (String × V) :=
  aset u.1 (combine (alookup u.1 m) u.2) m

/-- The accumulated value after feeding a list of payloads through `combine`. -/
def accF (combine : Option V → A → V) (o : Option V) (us : List (String × A)) :
    Option V :=
  us.foldl (fun o u => some (combine o u.2)) o

/-- Concatenation of per-element update lists (the flattened iteration order
of a `forEach` loop with an inner loop). -/
def flatList (f : α → List γ) : List α → List γ
  | [] => []
  | a :: l => f a ++ flatList f l

/-- Descending-by-avgMfe comparator used by `results.sort((a, b) => b.avgMfe - a.avgMfe)`. -/
def byAvgMfeDesc (a b : AnalysisResult) : Prop := b.avgMfe ≤ a.avgMfe

instance : DecidableRel byAvgMfeDesc := fun a b => inferInstanceAs (Decidable (_ ≤ _))

instance : IsTotal AnalysisResult byAvgMfeDesc := ⟨fun a b => le_total b.avgMfe a.avgMfe⟩

instance : IsTrans AnalysisResult byAvgMfeDesc := ⟨fun _ _ _ h1 h2 => le_trans h2 h1⟩

/-- Descending-by-avgMfe comparator for pair rows. -/
def byPairAvgMfeDesc (a b : PairAnalysisResult) : Prop := b.avgMfe ≤ a.avgMfe

instance : DecidableRel byPairAvgMfeDesc := fun a b => inferInstanceAs (Decidable (_ ≤ _))

instance : IsTotal PairAnalysisResult byPairAvgMfeDesc := ⟨fun a b => le_total b.avgMfe a.avgMfe⟩

instance : IsTrans PairAnalysisResult byPairAvgMfeDesc := ⟨fun _ _ _ h1 h2 => le_trans h2 h1⟩

/-- The per-level value of `statsMap` in calculateSingleFactorStats: { mfes, maes }. -/
structure SFEntry where
  mfes : List ℚ
  maes : List ℚ
deriving DecidableEq

/-- analysisService.ts lines 79-82: read the current entry (or fresh lists),
push the trade's mfe and mae. -/
def sfCombine (o : Option SFEntry) (u : ℚ × ℚ) : SFEntry :=
  let e := o.getD ⟨[], []⟩
  ⟨e.mfes ++ [u.1], e.maes ++ [u.2]⟩

/-- analysisService.ts lines 77-83: the sequence of map updates one trade
makes in calculateSingleFactorStats -- one per distinct active level
(`new Set(trade.taLevels.filter(...))`). -/
def sfUpdates (t : Trade) : List (String × (ℚ × ℚ)) :=
  (jsSetDedup (activeLevels t)).map (fun l => (l, (t.mfe, t.mae)))

/-- analysisService.ts lines 74-84: the fully built `statsMap`. -/
def sfMap (trades : List Trade) : List (String × SFEntry) :=
  trades.foldl (fun m t => (sfUpdates t).foldl (mapStep sfCombine) m) []

/-- analysisService.ts lines 87-101: one output row of calculateSingleFactorStats. -/
def sfRow (kv : String × SFEntry) : AnalysisResult :=
  let count := kv.2.mfes.length
  let totalMfe := kv.2.mfes.sum
  let totalMae := kv.2.maes.sum
  { level := kv.1,
    avgMfe := totalMfe / count,
    avgMae := totalMae / count,
    medianMfe := calculateMedian kv.2.mfes,
    medianMae := calculateMedian kv.2.maes,
    count := count,
    score := totalMfe / count - totalMae / count }

/-- analysisService.ts lines 73-104: calculateSingleFactorStats. -/
def calculateSingleFactorStats (trades : List Trade) : List AnalysisResult :=
  ((sfMap trades).map sfRow).insertionSort byAvgMfeDesc

/-- The per-key value of `pairMap` in calculatePairStats:
{ totalMfe, count, p1, p2 }. -/
structure PairEntry where
  totalMfe : ℚ
  count : ℕ
  p1 : String
  p2 : String
deriving DecidableEq

/-- analysisService.ts line 150: the composite map key for a pair. -/
def pairKey (p1 p2 : String) : String := p1 ++ "|" ++ p2

/-- analysisService.ts line 144: the trade's active levels, sorted
(`filter(...).sort()` -- note: no deduplication). -/
def activeSorted (t : Trade) : List String :=
  (activeLevels t).insertionSort (· ≤ ·)

/-- All index pairs (i < j) of a list, in the order of the nested loops on
analysisService.ts lines 146-147. -/
def listPairs : List α → List (α × α)
  | [] => []
  | x :: xs => xs.map (fun y => (x, y)) ++ listPairs xs

/-- The pairs one trade generates in calculatePairStats (lines 144-149). -/
def tradePairs (t : Trade) : List (String × String) := listPairs (activeSorted t)

/-- analysisService.ts lines 152-158: read the current entry (or a fresh one
carrying the current p1, p2), add the trade's mfe, bump the count, overwrite
p1 and p2. -/
def pairCombine (o : Option PairEntry) (u : (String × String) × ℚ) : PairEntry :=
  let c := o.getD ⟨0, 0, u.1.1, u.1.2⟩
  ⟨c.totalMfe + u.2, c.count + 1, u.1.1, u.1.2⟩

/-- The sequence of map updates one trade makes in calculatePairStats. -/
def pairUpdates (t : Trade) : List (String × ((String × String) × ℚ)) :=
  (tradePairs t).map (fun p => (pairKey p.1 p.2, (p, t.mfe)))

/-- analysisService.ts lines 141-161: the fully built `pairMap`. -/
def pairMap (trades : List Trade) : List (String × PairEntry) :=
  trades.foldl (fun m t => (pairUpdates t).foldl (mapStep pairCombine) m) []

/-- analysisService.ts lines 164-170: one output row of calculatePairStats. -/
def pairRow (kv : String × PairEntry) : PairAnalysisResult :=
  { pair := (kv.2.p1, kv.2.p2),
    avgMfe := kv.2.totalMfe / kv.2.count,
    count := kv.2.count }

/-- analysisService.ts lines 140-173: calculatePairStats
(`results.filter(r => r.count >= 2).sort((a, b) => b.avgMfe - a.avgMfe)`). -/
def calculatePairStats (trades : List Trade) : List PairAnalysisResult :=
  (((pairMap trades).map pairRow).filter
    (fun r => decide (2 ≤ r.count))).insertionSort byPairAvgMfeDesc

/-- The per-key value of a heatmap `matrix`: { totalMfe, count }. -/
structure HeatAcc where
  totalMfe : ℚ
  count : ℕ
deriving DecidableEq

/-- The heatmap accumulation step shared by the three heatmaps. -/
def heatCombine (o : Option HeatAcc) (mfe : ℚ) : HeatAcc :=
  let c := o.getD ⟨0, 0⟩
  ⟨c.totalMfe + mfe, c.count + 1⟩

/-- The composite grid key "Level::X". -/
def hkey (level x : String) : String := level ++ "::" ++ x

/-- calculateHeatmapStats x-axis: `if (!trade.entryType) return;` then the
entry type (line 182). -/
def xOfEntry (t : Trade) : Option String :=
  if t.entryType = "" then none else some t.entryType

/-- calculateSessionLevelHeatmap x-axis: `trade.session || 'N/A'` (line 224). -/
def xOfSession (t : Trade) : Option String := some (sessionOrNA t)

/-- calculateDeltaLevelHeatmap x-axis: `getDeltaCategory(trade.delta)` (line 270). -/
def xOfDelta (t : Trade) : Option String := some (getDeltaCategory t.delta).label

/-- The sequence of matrix updates one trade makes in a heatmap: skipped
entirely when the x category is absent, otherwise one update per element of
the trade's active-level list (not deduplicated). -/
def heatUpdates (xOf : Trade → Option String) (t : Trade) : List (String × ℚ) :=
  match xOf t with
  | none => []
  | some x => (activeLevels t).map (fun l => (hkey l x, t.mfe))

/-- The fully built heatmap `matrix` (e.g. lines 179-195 for the entry-type
heatmap; the session and delta heatmaps differ only in the x extractor). -/
def heatMatrix (xOf : Trade → Option String) (trades : List Trade) :
    List (String × HeatAcc) :=
  trades.foldl (fun m t => (heatUpdates xOf t).foldl (mapStep heatCombine) m) []

/-- The distinct x labels in first-encounter order (`entrySet` etc.). -/
def heatXRaw (xOf : Trade → Option String) (trades : List Trade) : List String :=
  jsSetDedup (trades.filterMap xOf)

/-- The distinct y labels in first-encounter order (`levelSet`): only trades
with a present x category reach the inner loop that adds levels. -/
def heatYRaw (xOf : Trade → Option String) (trades : List Trade) : List String :=
  jsSetDedup (flatList (fun t => if (xOf t).isSome then activeLevels t else []) trades)

/-- The `grid` map: per cell, average MFE and count (lines 197-204). -/
def heatGrid (xOf : Trade → Option String) (trades : List Trade) :
    List (String × HeatCell) :=
  (heatMatrix xOf trades).map
    (fun kv => (kv.1, ⟨kv.2.totalMfe / (kv.2.count : ℚ), kv.2.count⟩))

/-- The `maxMfe` accumulator: start at 0 and raise on every strictly larger
cell average (lines 198-203). -/
def heatMax (xOf : Trade → Option String) (trades : List Trade) : ℚ :=
  (heatMatrix xOf trades).foldl
    (fun mx kv =>
      let avg := kv.2.totalMfe / (kv.2.count : ℚ)
      if mx < avg then avg else mx) 0

/-- JS `Array.prototype.indexOf`: first index of the value, -1 if absent. -/
def jsIndexOf : List String → String → ℤ
  | [], _ => -1
  | a :: l, s =>
      if a = s then 0
      else
        let r := jsIndexOf l s
        if r = -1 then -1 else r + 1

/-- The comparator `(a, b) => order.indexOf(a) - order.indexOf(b)`. -/
def idxRel (order : List String) (a b : String) : Prop :=
  jsIndexOf order a ≤ jsIndexOf order b

instance (order : List String) : DecidableRel (idxRel order) :=
  fun a b => inferInstanceAs (Decidable (_ ≤ _))

/-- analysisService.ts line 248 (also line 135): the fixed session order. -/
def sessionOrder : List String := ["S1", "S2", "S3", "S4", "IS4", "N/A"]

/-- analysisService.ts line 294: the fixed delta-category order, as strings. -/
def deltaOrder : List String :=
  [DeltaCategory.HIGH_PLUS.label, DeltaCategory.HIGH.label, DeltaCategory.LOW.label]

/-- analysisService.ts lines 176-215: calculateHeatmapStats
(TA level x entry type; both label axes sorted lexicographically). -/
def calculateHeatmapStats (trades : List Trade) : HeatmapData :=
  { xLabels := (heatXRaw xOfEntry trades).insertionSort (· ≤ ·),
    yLabels := (heatYRaw xOfEntry trades).insertionSort (· ≤ ·),
    grid := heatGrid xOfEntry trades,
    maxMfe := heatMax xOfEntry trades }

/-- analysisService.ts lines 218-261: calculateSessionLevelHeatmap
(TA level x session; x labels in the fixed session order). -/
def calculateSessionLevelHeatmap (trades : List Trade) : HeatmapData :=
  { xLabels := (heatXRaw xOfSession trades).insertionSort (idxRel sessionOrder),
    yLabels := (heatYRaw xOfSession trades).insertionSort (· ≤ ·),
    grid := heatGrid xOfSession trades,
    maxMfe := heatMax xOfSession trades }

/-- analysisService.ts lines 264-307: calculateDeltaLevelHeatmap
(TA level x delta category; x labels in the fixed delta order). -/
def calculateDeltaLevelHeatmap (trades : List Trade) : HeatmapData :=
  { xLabels := (heatXRaw xOfDelta trades).insertionSort (idxRel deltaOrder),
    yLabels := (heatYRaw xOfDelta trades).insertionSort (· ≤ ·),
    grid := heatGrid xOfDelta trades,
    maxMfe := heatMax xOfDelta trades }

/-- analysisService.ts lines 309-322: getBestLevelForCondition. The source's
local bindings `oiThreshold` (computed once over the full list, before
filtering) and `filteredTrades` are inlined; `stats.length > 0 ? stats[0] :
null` is `List.head?`. -/
def getBestLevelForCondition (trades : List Trade)
    (conditionFn : Trade → ℚ → Bool) : Option AnalysisResult :=
  if trades = [] then none
  else if trades.filter (fun t => conditionFn t (getOIPercentileValue trades 75)) = []
    then none
  else (calculateSingleFactorStats
    (trades.filter (fun t => conditionFn t (getOIPercentileValue trades 75)))).head?

/-- The trades filtered as contributing to the single-factor group of a level. -/
def sfContrib (l : String) (trades : List Trade) : List Trade :=
  trades.filter (fun t => decide (l ∈ activeLevels t))

/-- Four trades whose open-interest values are 10, 20, 30, 40. -/
def oiTrades : List Trade :=
  [mkTrade [] 0 0 0 10 "" none, mkTrade [] 0 0 0 20 "" none,
   mkTrade [] 0 0 0 30 "" none, mkTrade [] 0 0 0 40 "" none]

/-- The same four trades with the first two swapped. -/
def oiTradesSwapped : List Trade :=
  [mkTrade [] 0 0 0 20 "" none, mkTrade [] 0 0 0 10 "" none,
   mkTrade [] 0 0 0 30 "" none, mkTrade [] 0 0 0 40 "" none]

/-- The three-trade scenario of the spec's end-to-end example. -/
def sfExTrades : List Trade :=
  [mkTrade ["A", "B"] 10 0 0 0 "" none, mkTrade ["A"] 20 0 0 0 "" none,
   mkTrade ["A", "B"] 6 0 0 0 "" none]

/-- A trade whose active levels are [B, A, A, C] (duplicate A). -/
def tBAAC : Trade := mkTrade ["B", "A", "A", "C"] 10 0 0 0 "" none

/-- A trade whose active levels are [B, A, C] (all distinct). -/
def tBAC : Trade := mkTrade ["B", "A", "C"] 10 0 0 0 "" none

/-- A trade whose active levels are [A, A, B] (duplicate A). -/
def tAAB : Trade := mkTrade ["A", "A", "B"] 10 0 0 0 "" none

/-- A trade with duplicated level A and entry type T. -/
def tAAT : Trade := mkTrade ["A", "A"] 10 0 0 0 "T" none

/-- A trade whose level slots are all unused ("None" or empty). -/
def tNoLevels : Trade := mkTrade ["None", ""] 10 0 0 0 "T" none

/-- Two duplicate-free trades sharing pair (A,B); only the second has C. -/
def wPairTrades : List Trade :=
  [mkTrade ["A", "B"] 10 0 0 0 "" none, mkTrade ["A", "B", "C"] 6 0 0 0 "" none]

/-- Two duplicate-free trades with entry types, for heatmap witnesses. -/
def wHeatTrades : List Trade :=
  [mkTrade ["A", "B"] 10 0 0 0 "T" none, mkTrade ["A"] 4 0 0 0 "T" none]

/-- C8: the hour-to-session mapping of getSessionFromTime sends every local
hour to exactly one of the five session labels, with hours [5,11) to S1,
[11,17) to S2, [17,23) to S3, [1,5) to IS4, and the remaining hours 0 and
23 to S4 -- a partition of the 24 hours with no gaps and no overlaps. -/
theorem C8_sessionFromHour_partition : ∀ h : Fin 24,
    (sessionFromHour h.val ∈ (["S1", "S2", "S3", "S4", "IS4"] : List String)) ∧
    (sessionFromHour h.val = "S1" ↔ 5 ≤ h.val ∧ h.val < 11) ∧
    (sessionFromHour h.val = "S2" ↔ 11 ≤ h.val ∧ h.val < 17) ∧
    (sessionFromHour h.val = "S3" ↔ 17 ≤ h.val ∧ h.val < 23) ∧
    (sessionFromHour h.val = "IS4" ↔ 1 ≤ h.val ∧ h.val < 5) ∧
    (sessionFromHour h.val = "S4" ↔ h.val = 0 ∨ h.val = 23) := by decide

/-- C9: getDeltaCategory depends only on the magnitude of its input
(negation-invariant), with strict thresholds: above 20 is High++, above 7 up
to 20 is High, up to 7 is Low; in particular 7 maps to Low and 20 to High. -/
theorem C9_deltaCategory_magnitude : ∀ x : ℚ,
    getDeltaCategory (-x) = getDeltaCategory x ∧
    (getDeltaCategory x = DeltaCategory.HIGH_PLUS ↔ 20 < |x|) ∧
    (getDeltaCategory x = DeltaCategory.HIGH ↔ 7 < |x| ∧ |x| ≤ 20) ∧
    (getDeltaCategory x = DeltaCategory.LOW ↔ |x| ≤ 7) ∧
    getDeltaCategory 7 = DeltaCategory.LOW ∧
    getDeltaCategory 20 = DeltaCategory.HIGH := by
  intro x
  have h7 : |(7 : ℚ)| = 7 := abs_of_nonneg (by norm_num)
  have h20 : |(20 : ℚ)| = 20 := abs_of_nonneg (by norm_num)
  refine ⟨by simp [getDeltaCategory, abs_neg], ?_, ?_, ?_, ?_, ?_⟩
  · unfold getDeltaCategory
    split_ifs with h1 h2 <;> simp_all <;> linarith
  · unfold getDeltaCategory
    split_ifs with h1 h2 <;> simp_all <;> linarith
  · unfold getDeltaCategory
    split_ifs with h1 h2 <;> simp_all <;> linarith
  · rw [getDeltaCategory, h7]
    norm_num
  · rw [getDeltaCategory, h20]
    norm_num

/-- C3 counterexample: at 119.5 minutes the code renders "1h 60m", while the
claim's formula (minutes-within-hour = round(total) mod 60) renders "1h 0m". -/
theorem C3_formatDuration_counterexample :
    formatDuration (239 / 2) = "1h 60m" ∧
    formatDurationSpec (239 / 2) = "1h 0m" ∧
    formatDuration (239 / 2) ≠ formatDurationSpec (239 / 2) := by
  refine ⟨?_, ?_, ?_⟩
  · norm_num [formatDuration, jsRound, jsRem, jsTrunc]; rfl
  · norm_num [formatDurationSpec, jsRound]; rfl
  · norm_num [formatDuration, formatDurationSpec, jsRound, jsRem, jsTrunc]
    decide

/-- C3 amended: for every non-negative number of minutes, formatDuration
returns "-" for 0, round(m) followed by "m" below 60, and otherwise
"{floor(m/60)}h {round(m mod 60)}m" -- the minutes-within-hour component is
the rounding of (m mod 60) itself (which can be 60), not round(m) mod 60;
0, 45 and 125 render as "-", "45m" and "2h 5m". -/
theorem C3_formatDuration_amended : ∀ m : ℚ, 0 ≤ m →
    formatDuration m = formatDurationSpecAmended m ∧
    formatDuration 0 = "-" ∧
    formatDuration 45 = "45m" ∧
    formatDuration 125 = "2h 5m" := by
  intro m hm
  refine ⟨?_, by simp [formatDuration], ?_, ?_⟩
  · have ht : jsTrunc (m / 60) = ⌊m / 60⌋ := by
      unfold jsTrunc
      rw [if_neg (not_lt.mpr (by positivity))]
    unfold formatDuration formatDurationSpecAmended jsRem
    rw [ht]
  · norm_num [formatDuration, jsRound]; rfl
  · norm_num [formatDuration, jsRound, jsRem, jsTrunc]; rfl

/-- C3 witness: the amended equation instantiated at the counterexample point
119.5 and the concrete example 125. -/
theorem C3_formatDuration_witness :
    formatDuration (239 / 2) = formatDurationSpecAmended (239 / 2) ∧
    formatDuration 125 = "2h 5m" :=
  ⟨(C3_formatDuration_amended (239 / 2) (by norm_num)).1,
   (C3_formatDuration_amended 0 le_rfl).2.2.2⟩

/-- C7: getOIPercentileValue returns 0 on the empty list, is invariant under
reordering of the input trades, uses nearest-rank selection on the
ascending-sorted open-interest values (index floor(p/100*n) clamped to n-1),
and returns 40 for OI values [10,20,30,40] at percentile 75. -/
theorem C7_percentile_nearest_rank (trades trades2 : List Trade) (p : ℚ)
    (hp0 : 0 ≤ p) (hp100 : p ≤ 100) :
    (trades = [] → getOIPercentileValue trades p = 0) ∧
    (trades.map (fun t => t.oi) ~ trades2.map (fun t => t.oi) →
      getOIPercentileValue trades p = getOIPercentileValue trades2 p) ∧
    (trades ≠ [] →
      getOIPercentileValue trades p =
        ((trades.map (fun t => t.oi)).insertionSort (· ≤ ·)).getD
          (min ⌊p / 100 * (trades.length : ℚ)⌋ ((trades.length : ℤ) - 1)).toNat 0) ∧
    getOIPercentileValue oiTrades 75 = 40 := by
  refine ⟨fun h => by simp [getOIPercentileValue, h], ?_, ?_, ?_⟩
  · intro hperm
    by_cases h : trades = []
    · have h2 : trades2 = [] := by
        subst h
        exact List.map_eq_nil_iff.mp (List.Perm.eq_nil hperm.symm)
      simp [getOIPercentileValue, h, h2]
    · have h2 : trades2 ≠ [] := by
        intro hc
        subst hc
        exact h (List.map_eq_nil_iff.mp (List.Perm.eq_nil hperm))
      unfold getOIPercentileValue
      rw [if_neg h, if_neg h2]
      have hs : (trades.map (fun t => t.oi)).insertionSort (· ≤ ·) =
          (trades2.map (fun t => t.oi)).insertionSort (· ≤ ·) :=
        List.eq_of_perm_of_sorted
          (((List.perm_insertionSort _ _).trans hperm).trans
            (List.perm_insertionSort _ _).symm)
          (List.sorted_insertionSort _ _) (List.sorted_insertionSort _ _)
      rw [hs]
  · intro h
    unfold getOIPercentileValue
    rw [if_neg h]
    have hlen : ((trades.map (fun t => t.oi)).insertionSort (· ≤ ·)).length =
        trades.length := by
      rw [(List.perm_insertionSort _ _).length_eq, List.length_map]
    simp only [hlen]
  · simp +decide only [getOIPercentileValue, oiTrades, mkTrade, List.map]
    norm_num [List.insertionSort, List.orderedInsert, List.getD]
    rfl

/-- C7 witness: permutation invariance instantiated on a concrete shuffle of
the four-trade example. -/
theorem C7_percentile_witness :
    getOIPercentileValue oiTradesSwapped 75 = getOIPercentileValue oiTrades 75 := by
  have hperm : oiTradesSwapped.map (fun t => t.oi) ~ oiTrades.map (fun t => t.oi) := by
    simp only [oiTradesSwapped, oiTrades, mkTrade, List.map]
    exact List.Perm.swap 10 20 [30, 40]
  exact (C7_percentile_nearest_rank oiTradesSwapped oiTrades 75 (by norm_num)
    (by norm_num)).2.1 hperm

/-- C5: getBestLevelForCondition computes the 75th-percentile OI threshold
over the full input list before filtering (so predicates agreeing at that
threshold give identical results), returns none on an empty input or an
empty filtered subset, and otherwise any returned result is a row of the
single-factor stats of the filtered subset with the highest average MFE. -/
theorem C5_bestLevel_threshold_first (trades : List Trade) :
    (∀ f g : Trade → ℚ → Bool,
      (∀ t ∈ trades, f t (getOIPercentileValue trades 75) =
        g t (getOIPercentileValue trades 75)) →
      getBestLevelForCondition trades f = getBestLevelForCondition trades g) ∧
    (trades = [] → ∀ f, getBestLevelForCondition trades f = none) ∧
    (∀ f, trades.filter (fun t => f t (getOIPercentileValue trades 75)) = [] →
      getBestLevelForCondition trades f = none) ∧
    (∀ f r, getBestLevelForCondition trades f = some r →
      r ∈ calculateSingleFactorStats
        (trades.filter (fun t => f t (getOIPercentileValue trades 75))) ∧
      ∀ s ∈ calculateSingleFactorStats
        (trades.filter (fun t => f t (getOIPercentileValue trades 75))),
        s.avgMfe ≤ r.avgMfe) := by
  refine ⟨?_, ?_, ?_, ?_⟩
  · intro f g hfg
    unfold getBestLevelForCondition
    rw [List.filter_congr hfg]
  · intro h f
    unfold getBestLevelForCondition
    rw [if_pos h]
  · intro f h
    unfold getBestLevelForCondition
    by_cases h0 : trades = []
    · rw [if_pos h0]
    · rw [if_neg h0, if_pos h]
  · intro f r hr
    unfold getBestLevelForCondition at hr
    by_cases h0 : trades = []
    · rw [if_pos h0] at hr
      cases hr
    by_cases h1 : trades.filter (fun t => f t (getOIPercentileValue trades 75)) = []
    · rw [if_neg h0, if_pos h1] at hr
      cases hr
    rw [if_neg h0, if_neg h1] at hr
    have hsorted : List.Sorted byAvgMfeDesc (calculateSingleFactorStats
        (trades.filter (fun t => f t (getOIPercentileValue trades 75)))) :=
      List.sorted_insertionSort _ _
    cases hstats : calculateSingleFactorStats
        (trades.filter (fun t => f t (getOIPercentileValue trades 75))) with
    | nil =>
        rw [hstats] at hr
        cases hr
    | cons r0 tl =>
        rw [hstats] at hr
        have hr0 : r0 = r := by
          simpa using hr
        subst hr0
        rw [hstats] at hsorted
        have hbound := (List.sorted_cons.mp hsorted).1
        refine ⟨List.mem_cons_self _ _, ?_⟩
        intro s hs
        rcases List.mem_cons.mp hs with h | h
        · rw [h]
        · exact hbound s h

/-- C5 witness: two syntactically different predicates that agree at the
full-list threshold give the same best level on a concrete trade list. -/
theorem C5_bestLevel_witness :
    getBestLevelForCondition wHeatTrades (fun _ _ => true) =
      getBestLevelForCondition wHeatTrades (fun _ thr => decide (thr = thr)) :=
  (C5_bestLevel_threshold_first wHeatTrades).1 (fun _ _ => true)
    (fun _ thr => decide (thr = thr)) (fun t _ => by simp)

/-- Levels that are all unused produce an empty active-level list. -/
lemma activeLevels_eq_nil (t : Trade) (h : ∀ l ∈ t.taLevels, l = "None" ∨ l = "") :
    activeLevels t = [] := by
  unfold activeLevels
  rw [List.filter_eq_nil_iff]
  intro l hl
  rcases h l hl with h1 | h1 <;> simp [h1]

/-- A trade with no active levels makes no single-factor map updates. -/
lemma sfUpdates_eq_nil (t : Trade) (h : activeLevels t = []) : sfUpdates t = [] := by
  unfold sfUpdates
  rw [h]
  rfl

/-- If no trade makes an update, the single-factor stats map stays empty. -/
lemma sfMap_eq_nil : ∀ ts : List Trade, (∀ t ∈ ts, sfUpdates t = []) → sfMap ts = [] := by
  intro ts
  unfold sfMap
  induction ts with
  | nil => intro _; rfl
  | cons t rest ih =>
      intro h
      rw [List.foldl_cons, h t (List.mem_cons_self _ _), List.foldl_nil]
      exact ih (fun x hx => h x (List.mem_cons_of_mem _ hx))

/-- C10: when the input list and the predicate-filtered subset are both
non-empty but every filtered trade's level slots are all "None" or empty,
getBestLevelForCondition still returns none -- a third none-condition beyond
the two empty-collection cases. -/
theorem C10_bestLevel_none_when_no_levels (trades : List Trade)
    (f : Trade → ℚ → Bool) (hne : trades ≠ [])
    (hfne : trades.filter (fun t => f t (getOIPercentileValue trades 75)) ≠ [])
    (hnl : ∀ t ∈ trades.filter (fun t => f t (getOIPercentileValue trades 75)),
      ∀ l ∈ t.taLevels, l = "None" ∨ l = "") :
    getBestLevelForCondition trades f = none := by
  unfold getBestLevelForCondition
  rw [if_neg hne, if_neg hfne]
  unfold calculateSingleFactorStats
  rw [sfMap_eq_nil _
    (fun t ht => sfUpdates_eq_nil t (activeLevels_eq_nil t (hnl t ht)))]
  rfl

/-- C10 witness: a concrete one-trade list (slots "None" and "") with an
all-accepting predicate yields none. -/
theorem C10_bestLevel_witness :
    getBestLevelForCondition [tNoLevels] (fun _ _ => true) = none := by
  apply C10_bestLevel_none_when_no_levels
  · simp
  · simp [List.filter]
  · intro t ht l hl
    simp only [List.filter, tNoLevels, mkTrade] at ht hl
    simp only [List.mem_singleton] at ht
    subst ht
    simp only [tNoLevels, mkTrade, List.mem_cons, List.mem_singleton] at hl
    tauto

section MapMachinery

variable {V A : Type}

/-- Looking up the key just set returns the value just set. -/
lemma alookup_aset_self (m : List (String × V)) (k : String) (v : V) :
    alookup k (aset k v m) = some v := by
  induction m with
  | nil => simp [aset, alookup]
  | cons kv rest ih =>
      obtain ⟨k1, v1⟩ := kv
      by_cases h : k1 = k
      · simp [aset, h, alookup]
      · simp [aset, h, alookup, ih]

/-- Setting one key leaves lookups at other keys unchanged. -/
lemma alookup_aset_ne (m : List (String × V)) (k k1 : String) (v : V)
    (h : k1 ≠ k) : alookup k1 (aset k v m) = alookup k1 m := by
  have hk : ¬ k = k1 := fun hc => h hc.symm
  induction m with
  | nil => simp [aset, alookup, hk]
  | cons kv rest ih =>
      obtain ⟨k2, v2⟩ := kv
      by_cases h2 : k2 = k
      · subst h2
        simp [aset, alookup, hk]
      · simp only [aset, if_neg h2, alookup]
        by_cases h3 : k2 = k1 <;> simp [h3, ih]

/-- The keys after an update: unchanged when present, appended when fresh. -/
lemma akeys_aset (m : List (String × V)) (k : String) (v : V) :
    akeys (aset k v m) = if k ∈ akeys m then akeys m else akeys m ++ [k] := by
  induction m with
  | nil => simp [aset, akeys]
  | cons kv rest ih =>
      obtain ⟨k1, v1⟩ := kv
      by_cases h : k1 = k
      · simp [aset, h, akeys]
      · have h1 : aset k v ((k1, v1) :: rest) = (k1, v1) :: aset k v rest := by
          simp [aset, h]
        have h2 : akeys ((k1, v1) :: aset k v rest) = k1 :: akeys (aset k v rest) :=
          rfl
        have h3 : akeys ((k1, v1) :: rest) = k1 :: akeys rest := rfl
        rw [h1, h2, h3, ih]
        have hk : ¬ k = k1 := fun hc => h hc.symm
        by_cases h4 : k ∈ akeys rest
        · rw [if_pos h4, if_pos (List.mem_cons.mpr (Or.inr h4))]
        · rw [if_neg h4, if_neg (by simp [List.mem_cons, hk, h4]),
            List.cons_append]

/-- Updates preserve distinctness of the keys. -/
lemma nodup_akeys_aset (m : List (String × V)) (k : String) (v : V)
    (h : (akeys m).Nodup) : (akeys (aset k v m)).Nodup := by
  rw [akeys_aset]
  by_cases hk : k ∈ akeys m
  · rw [if_pos hk]; exact h
  · rw [if_neg hk]
    simp [List.nodup_append, h, hk]

/-- With distinct keys, every stored entry is found by lookup. -/
lemma alookup_eq_some_of_mem (m : List (String × V)) (kv : String × V)
    (h : (akeys m).Nodup) (hm : kv ∈ m) : alookup kv.1 m = some kv.2 := by
  induction m with
  | nil => cases hm
  | cons kv1 rest ih =>
      obtain ⟨k1, v1⟩ := kv1
      simp only [akeys, List.map_cons, List.nodup_cons] at h
      rcases List.mem_cons.mp hm with h1 | h1
      · subst h1
        simp [alookup]
      · have hne : k1 ≠ kv.1 := by
          intro hc
          exact h.1 (hc ▸ List.mem_map.mpr ⟨kv, h1, rfl⟩)
        simp only [alookup, if_neg hne]
        exact ih h.2 h1

/-- A successful lookup is a stored entry. -/
lemma mem_of_alookup_eq_some (m : List (String × V)) (k : String) (v : V)
    (h : alookup k m = some v) : (k, v) ∈ m := by
  induction m with
  | nil => cases h
  | cons kv1 rest ih =>
      obtain ⟨k1, v1⟩ := kv1
      by_cases h1 : k1 = k
      · subst h1
        have h2 : v1 = v := by simpa [alookup] using h
        subst h2
        exact List.mem_cons_self _ _
      · simp only [alookup, if_neg h1] at h
        exact List.mem_cons_of_mem _ (ih h)

/-- A lookup fails exactly when the key is absent. -/
lemma alookup_eq_none_iff (m : List (String × V)) (k : String) :
    alookup k m = none ↔ k ∉ akeys m := by
  induction m with
  | nil => simp [alookup, akeys]
  | cons kv1 rest ih =>
      obtain ⟨k1, v1⟩ := kv1
      by_cases h1 : k1 = k
      · subst h1
        simp [alookup, akeys]
      · simp [alookup, akeys, h1, ih]
        tauto

lemma accF_nil (combine : Option V → A → V) (o : Option V) :
    accF combine o [] = o := rfl

lemma accF_cons (combine : Option V → A → V) (o : Option V)
    (u : String × A) (us : List (String × A)) :
    accF combine o (u :: us) = accF combine (some (combine o u.2)) us := rfl

/-- The central accumulation lemma: after folding a sequence of keyed updates
into the map, the entry at a key is the combine-fold of exactly the updates
carrying that key, over the entry the map had before. -/
lemma alookup_foldl_mapStep (combine : Option V → A → V) :
    ∀ (us : List (String × A)) (m : List (String × V)) (k : String),
      alookup k (us.foldl (mapStep combine) m) =
        accF combine (alookup k m) (us.filter (fun u => decide (u.1 = k))) := by
  intro us
  induction us with
  | nil => intro m k; simp [accF]
  | cons u rest ih =>
      intro m k
      rw [List.foldl_cons, ih]
      by_cases h : u.1 = k
      · rw [List.filter_cons_of_pos (by simpa using h), accF_cons]
        subst h
        unfold mapStep
        rw [alookup_aset_self]
      · rw [List.filter_cons_of_neg (by simpa using h)]
        unfold mapStep
        rw [alookup_aset_ne _ _ _ _ (fun hc => h hc.symm)]

/-- Folding updates into a map with distinct keys keeps the keys distinct. -/
lemma nodup_akeys_foldl_mapStep (combine : Option V → A → V) :
    ∀ (us : List (String × A)) (m : List (String × V)),
      (akeys m).Nodup → (akeys (us.foldl (mapStep combine) m)).Nodup := by
  intro us
  induction us with
  | nil => intro m h; exact h
  | cons u rest ih =>
      intro m h
      rw [List.foldl_cons]
      exact ih _ (nodup_akeys_aset _ _ _ h)

/-- A nested per-element fold is the fold of the flattened update sequence. -/
lemma foldl_inner {M U α : Type} (g : M → U → M) (f : α → List U) :
    ∀ (l : List α) (m : M),
      l.foldl (fun acc a => (f a).foldl g acc) m = (flatList f l).foldl g m := by
  intro l
  induction l with
  | nil => intro m; rfl
  | cons a rest ih =>
      intro m
      rw [List.foldl_cons, ih, flatList, List.foldl_append]

/-- Membership in a flattened update sequence. -/
lemma mem_flatList {α γ : Type} (f : α → List γ) (l : List α) (x : γ) :
    x ∈ flatList f l ↔ ∃ a ∈ l, x ∈ f a := by
  induction l with
  | nil => simp [flatList]
  | cons a rest ih => simp [flatList, ih]

/-- Filtering commutes with flattening. -/
lemma filter_flatList {α γ : Type} (p : γ → Bool) (f : α → List γ) (l : List α) :
    (flatList f l).filter p = flatList (fun a => (f a).filter p) l := by
  induction l with
  | nil => rfl
  | cons a rest ih => simp only [flatList, List.filter_append, ih]

/-- A flattened sequence of conditional singletons is a filtered map. -/
lemma flatList_ite_singleton {α γ : Type} (P : α → Prop) [DecidablePred P]
    (g : α → γ) (f : α → List γ) :
    ∀ l : List α, (∀ a ∈ l, f a = if P a then [g a] else []) →
      flatList f l = (l.filter (fun a => decide (P a))).map g := by
  intro l
  induction l with
  | nil => intro _; rfl
  | cons a rest ih =>
      intro h
      rw [flatList, h a (List.mem_cons_self _ _),
        ih (fun x hx => h x (List.mem_cons_of_mem _ hx))]
      by_cases hP : P a
      · rw [if_pos hP, List.filter_cons_of_pos (by simpa using hP), List.map_cons]
        rfl
      · rw [if_neg hP, List.filter_cons_of_neg (by simpa using hP), List.nil_append]

/-- Elements skipped by a filter that contribute nothing can be dropped. -/
lemma flatList_filter_of_nil {α γ : Type} (P : α → Prop) [DecidablePred P]
    (f : α → List γ) (hf : ∀ a, ¬ P a → f a = []) :
    ∀ l : List α, flatList f l = flatList f (l.filter (fun a => decide (P a))) := by
  intro l
  induction l with
  | nil => rfl
  | cons a rest ih =>
      by_cases hP : P a
      · rw [List.filter_cons_of_pos (by simpa using hP), flatList, flatList, ih]
      · rw [List.filter_cons_of_neg (by simpa using hP), flatList, hf a hP,
          List.nil_append, ih]

/-- Counting in a flattened sequence sums the per-element counts. -/
lemma countP_flatList {α γ : Type} (p : γ → Bool) (f : α → List γ) (l : List α) :
    (flatList f l).countP p = (l.map (fun a => (f a).countP p)).sum := by
  induction l with
  | nil => rfl
  | cons a rest ih => simp [flatList, List.countP_append, ih]

end MapMachinery

section ListHelpers

/-- Insertion-order deduplication preserves membership. -/
lemma mem_jsSetDedup (l : List String) (a : String) :
    a ∈ jsSetDedup l ↔ a ∈ l := by
  induction l with
  | nil => simp [jsSetDedup]
  | cons x xs ih =>
      by_cases h : a = x
      · simp [jsSetDedup, h]
      · simp [jsSetDedup, List.mem_filter, h, ih]

/-- Insertion-order deduplication yields distinct values. -/
lemma nodup_jsSetDedup (l : List String) : (jsSetDedup l).Nodup := by
  induction l with
  | nil => simp [jsSetDedup]
  | cons x xs ih =>
      rw [jsSetDedup, List.nodup_cons]
      constructor
      · intro hc
        exact (by simpa using (List.mem_filter.mp hc).2 : x ≠ x) rfl
      · exact ih.filter _

/-- On a duplicate-free list, filtering for one value leaves at most a
singleton. -/
lemma filter_eq_singleton_of_nodup {α : Type} [DecidableEq α] :
    ∀ l : List α, l.Nodup → ∀ a : α,
      l.filter (fun x => decide (x = a)) = if a ∈ l then [a] else [] := by
  intro l
  induction l with
  | nil => intro _ a; rfl
  | cons x xs ih =>
      intro h a
      rcases List.nodup_cons.mp h with ⟨hx, hxs⟩
      by_cases hax : x = a
      · subst hax
        rw [List.filter_cons_of_pos (by simp), if_pos (List.mem_cons_self _ _)]
        rw [ih hxs x, if_neg hx]
      · rw [List.filter_cons_of_neg (by simpa using hax), ih hxs a]
        by_cases ha : a ∈ xs
        · rw [if_pos ha, if_pos (List.mem_cons.mpr (Or.inr ha))]
        · rw [if_neg ha, if_neg (by simp [List.mem_cons, ha, Ne.symm hax])]

/-- On a duplicate-free list the equality count is an indicator. -/
lemma countP_eq_ite {α : Type} [DecidableEq α] :
    ∀ l : List α, l.Nodup → ∀ a : α,
      l.countP (fun x => decide (x = a)) = if a ∈ l then 1 else 0 := by
  intro l hl a
  rw [List.countP_eq_length_filter, filter_eq_singleton_of_nodup l hl a]
  by_cases h : a ∈ l <;> simp [h]

/-- Summing an indicator over a list counts the satisfying elements. -/
lemma sum_map_ite_eq_countP {α : Type} (P : α → Prop) [DecidablePred P] :
    ∀ l : List α,
      (l.map (fun a => if P a then (1 : ℕ) else 0)).sum =
        l.countP (fun a => decide (P a)) := by
  intro l
  induction l with
  | nil => rfl
  | cons a rest ih =>
      rw [List.map_cons, List.sum_cons, List.countP_cons, ih]
      by_cases h : P a <;> simp [h, Nat.add_comm]

/-- The running strict-improvement maximum of the heatmap loop: it dominates
the initial value and every element, and is attained by one of them. -/
lemma jsMax_spec {α : Type} (f : α → ℚ) :
    ∀ (l : List α) (init : ℚ),
      init ≤ l.foldl (fun mx a => if mx < f a then f a else mx) init ∧
      (∀ a ∈ l, f a ≤ l.foldl (fun mx a => if mx < f a then f a else mx) init) ∧
      (l.foldl (fun mx a => if mx < f a then f a else mx) init = init ∨
        ∃ a ∈ l, l.foldl (fun mx a => if mx < f a then f a else mx) init = f a) := by
  intro l
  induction l with
  | nil => intro init; exact ⟨le_rfl, by simp, Or.inl rfl⟩
  | cons a rest ih =>
      intro init
      rw [List.foldl_cons]
      obtain ⟨h1, h2, h3⟩ := ih (if init < f a then f a else init)
      have hstep : init ≤ (if init < f a then f a else init) := by
        by_cases h : init < f a
        · rw [if_pos h]; exact le_of_lt h
        · rw [if_neg h]
      have hfa : f a ≤ (if init < f a then f a else init) := by
        by_cases h : init < f a
        · rw [if_pos h]
        · rw [if_neg h]; exact le_of_not_lt h
      refine ⟨le_trans hstep h1, ?_, ?_⟩
      · intro b hb
        rcases List.mem_cons.mp hb with hb | hb
        · subst hb; exact le_trans hfa h1
        · exact h2 b hb
      · rcases h3 with h3 | ⟨b, hb, h3⟩
        · by_cases h : init < f a
          · rw [if_pos h] at h3 ⊢
            exact Or.inr ⟨a, List.mem_cons_self _ _, h3⟩
          · rw [if_neg h] at h3 ⊢
            exact Or.inl h3
        · exact Or.inr ⟨b, List.mem_cons_of_mem _ hb, h3⟩

/-- A weakly sorted duplicate-free list is strictly sorted. -/
lemma pairwise_lt_of_sorted_nodup {α : Type} [LinearOrder α] (l : List α)
    (hs : l.Sorted (· ≤ ·)) (hn : l.Nodup) : l.Pairwise (· < ·) :=
  (List.Pairwise.and hs hn).imp (fun h => lt_of_le_of_ne h.1 h.2)

/-- Both components of an index pair are list elements. -/
lemma mem_of_mem_listPairs {α : Type} :
    ∀ (l : List α) (p : α × α), p ∈ listPairs l → p.1 ∈ l ∧ p.2 ∈ l := by
  intro l
  induction l with
  | nil => intro p hp; cases hp
  | cons x xs ih =>
      intro p hp
      rcases List.mem_append.mp hp with hp | hp
      · obtain ⟨y, hy, hxy⟩ := List.mem_map.mp hp
        subst hxy
        exact ⟨List.mem_cons_self _ _, List.mem_cons_of_mem _ hy⟩
      · obtain ⟨h1, h2⟩ := ih p hp
        exact ⟨List.mem_cons_of_mem _ h1, List.mem_cons_of_mem _ h2⟩

/-- On a strictly sorted list, the index pairs are exactly the strictly
increasing pairs of elements. -/
lemma mem_listPairs_iff {α : Type} [LinearOrder α] :
    ∀ l : List α, l.Pairwise (· < ·) → ∀ a b : α,
      ((a, b) ∈ listPairs l ↔ a < b ∧ a ∈ l ∧ b ∈ l) := by
  intro l
  induction l with
  | nil => intro _ a b; simp [listPairs]
  | cons x xs ih =>
      intro hl a b
      rcases List.pairwise_cons.mp hl with ⟨hx, hxs⟩
      rw [listPairs, List.mem_append]
      constructor
      · intro h
        rcases h with h | h
        · obtain ⟨y, hy, hxy⟩ := List.mem_map.mp h
          obtain ⟨h1, h2⟩ := Prod.mk.inj hxy
          subst h1
          subst h2
          exact ⟨hx _ hy, List.mem_cons_self _ _, List.mem_cons_of_mem _ hy⟩
        · obtain ⟨hab, ha, hb⟩ := (ih hxs a b).mp h
          exact ⟨hab, List.mem_cons_of_mem _ ha, List.mem_cons_of_mem _ hb⟩
      · rintro ⟨hab, ha, hb⟩
        rcases List.mem_cons.mp ha with ha | ha
        · subst ha
          rcases List.mem_cons.mp hb with hb | hb
          · exact absurd (hb ▸ hab) (lt_irrefl a)
          · exact Or.inl (List.mem_map.mpr ⟨b, hb, rfl⟩)
        · rcases List.mem_cons.mp hb with hb | hb
          · have h1 : a < x := hb ▸ hab
            exact absurd (lt_trans h1 (hx a ha)) (lt_irrefl a)
          · exact Or.inr ((ih hxs a b).mpr ⟨hab, ha, hb⟩)

/-- The index pairs of a strictly sorted list are pairwise distinct. -/
lemma nodup_listPairs {α : Type} [LinearOrder α] :
    ∀ l : List α, l.Pairwise (· < ·) → (listPairs l).Nodup := by
  intro l
  induction l with
  | nil => intro _; simp [listPairs]
  | cons x xs ih =>
      intro hl
      rcases List.pairwise_cons.mp hl with ⟨hx, hxs⟩
      rw [listPairs]
      have hnd : xs.Nodup := hxs.imp ne_of_lt
      apply List.Nodup.append
      · exact hnd.map (fun a b hab => congrArg Prod.snd hab)
      · exact ih hxs
      · intro p hp1 hp2
        obtain ⟨y, hy, hxy⟩ := List.mem_map.mp hp1
        have h1 := (mem_of_mem_listPairs xs p hp2).1
        rw [← hxy] at h1
        exact absurd (hx x h1) (lt_irrefl x)

end ListHelpers

section SeparatorInjectivity

/-- Splitting at a separator character absent from both prefixes is
unambiguous. -/
lemma append_sep_inj (ch : Char) :
    ∀ a c b d : List Char, ch ∉ a → ch ∉ c →
      a ++ ch :: b = c ++ ch :: d → a = c ∧ b = d := by
  intro a
  induction a with
  | nil =>
      intro c b d _ hc h
      cases c with
      | nil =>
          simp only [List.nil_append, List.cons.injEq] at h
          exact ⟨rfl, h.2⟩
      | cons y c2 =>
          rw [List.nil_append, List.cons_append] at h
          obtain ⟨h1, _⟩ := List.cons.inj h
          exact absurd (h1 ▸ List.mem_cons_self y c2) hc
  | cons x a2 ih =>
      intro c b d ha hc h
      cases c with
      | nil =>
          rw [List.cons_append, List.nil_append] at h
          obtain ⟨h1, _⟩ := List.cons.inj h
          exact absurd (h1 ▸ List.mem_cons_self x a2) ha
      | cons y c2 =>
          rw [List.cons_append, List.cons_append] at h
          obtain ⟨h1, h2⟩ := List.cons.inj h
          have hha : ch ∉ a2 := fun hm => ha (List.mem_cons_of_mem _ hm)
          have hhc : ch ∉ c2 := fun hm => hc (List.mem_cons_of_mem _ hm)
          obtain ⟨h3, h4⟩ := ih c2 b d hha hhc h2
          exact ⟨by rw [h1, h3], h4⟩

/-- When neither first component contains the bar separator, the pair map key
determines the pair. -/
lemma pairKey_inj (p1 p2 q1 q2 : String) (h1 : ('|' : Char) ∉ p1.data)
    (h2 : ('|' : Char) ∉ q1.data) (h : pairKey p1 p2 = pairKey q1 q2) :
    p1 = q1 ∧ p2 = q2 := by
  unfold pairKey at h
  have hd : p1.data ++ '|' :: p2.data = q1.data ++ '|' :: q2.data := by
    have h3 := congrArg String.data h
    simpa [String.data_append, List.append_assoc] using h3
  obtain ⟨ha, hb⟩ := append_sep_inj '|' p1.data q1.data p2.data q2.data h1 h2 hd
  exact ⟨String.ext ha, String.ext hb⟩

/-- When neither level contains a colon, the heatmap grid key determines the
cell coordinates. -/
lemma hkey_inj (y x y2 x2 : String) (h1 : (':' : Char) ∉ y.data)
    (h2 : (':' : Char) ∉ y2.data) (h : hkey y x = hkey y2 x2) :
    y = y2 ∧ x = x2 := by
  unfold hkey at h
  have hd : y.data ++ ':' :: (':' :: x.data) = y2.data ++ ':' :: (':' :: x2.data) := by
    have h3 := congrArg String.data h
    simpa [String.data_append, List.append_assoc] using h3
  obtain ⟨ha, hb⟩ := append_sep_inj ':' y.data y2.data _ _ h1 h2 hd
  obtain ⟨_, hb2⟩ := List.cons.inj hb
  exact ⟨String.ext ha, String.ext hb2⟩

end SeparatorInjectivity

/-- C1 counterexample: a trade with active levels [B, A, A, C] (duplicate A)
generates the self-pair (A,A) and repeats (A,B) and (A,C) within the single
trade, because calculatePairStats sorts but does not deduplicate. -/
theorem C1_tradePairs_counterexample :
    tradePairs tBAAC =
      [("A", "A"), ("A", "B"), ("A", "C"), ("A", "B"), ("A", "C"), ("B", "C")] ∧
    ("A", "A") ∈ tradePairs tBAAC ∧ ¬ (tradePairs tBAAC).Nodup := by
  have h : tradePairs tBAAC =
      [("A", "A"), ("A", "B"), ("A", "C"), ("A", "B"), ("A", "C"), ("B", "C")] := by
    simp +decide [tradePairs, activeSorted, activeLevels, tBAAC, mkTrade,
      listPairs, List.insertionSort, List.orderedInsert]
  exact ⟨h, by rw [h]; decide, by rw [h]; decide⟩

/-- C1 amended: for a trade whose active (non-"None", non-empty) levels are
pairwise distinct, the pairs generated by calculatePairStats are exactly the
2-combinations of its active levels in lexicographic order -- each generated
pair is strictly increasing, no pair repeats within the trade, and (a,b) is
generated exactly when a < b and both are active. With duplicated levels the
source generates self-pairs and repeated pairs (see the counterexample). -/
theorem C1_tradePairs_amended (t : Trade) (h : (activeLevels t).Nodup) :
    (∀ p ∈ tradePairs t, p.1 < p.2) ∧
    (tradePairs t).Nodup ∧
    (∀ a b : String, ((a, b) ∈ tradePairs t ↔
      a < b ∧ a ∈ activeLevels t ∧ b ∈ activeLevels t)) := by
  have hperm : activeSorted t ~ activeLevels t := List.perm_insertionSort _ _
  have hsorted : (activeSorted t).Sorted (· ≤ ·) := List.sorted_insertionSort _ _
  have hnd : (activeSorted t).Nodup := hperm.nodup_iff.mpr h
  have hlt : (activeSorted t).Pairwise (· < ·) :=
    pairwise_lt_of_sorted_nodup _ hsorted hnd
  refine ⟨?_, nodup_listPairs _ hlt, ?_⟩
  · intro p hp
    have hp2 : (p.1, p.2) ∈ listPairs (activeSorted t) := by simpa using hp
    exact ((mem_listPairs_iff (activeSorted t) hlt p.1 p.2).mp hp2).1
  · intro a b
    rw [tradePairs, mem_listPairs_iff _ hlt a b, hperm.mem_iff, hperm.mem_iff]

/-- C1 witness: on the duplicate-free trade [B, A, C], the pair (A,B) is
generated. -/
theorem C1_tradePairs_witness : ("A", "B") ∈ tradePairs tBAC :=
  ((C1_tradePairs_amended tBAC (by decide)).2.2 "A" "B").mpr
    ⟨by rw [String.lt_iff_toList_lt]; decide, by decide, by decide⟩

section SingleFactorMachinery

/-- The single-factor updates of one trade, filtered to one level key. -/
lemma sfUpdates_filter (t : Trade) (l : String) :
    (sfUpdates t).filter (fun u => decide (u.1 = l)) =
      if l ∈ activeLevels t then [(l, (t.mfe, t.mae))] else [] := by
  unfold sfUpdates
  have hgen : ∀ xs : List String, xs.Nodup →
      ((xs.map (fun x => (x, (t.mfe, t.mae)))).filter (fun u => decide (u.1 = l))) =
        if l ∈ xs then [(l, (t.mfe, t.mae))] else [] := by
    intro xs
    induction xs with
    | nil => intro _; rfl
    | cons x rest ih =>
        intro hnd
        rcases List.nodup_cons.mp hnd with ⟨hx, hrest⟩
        rw [List.map_cons]
        by_cases h : x = l
        · subst h
          rw [List.filter_cons_of_pos (by simp), ih hrest,
            if_neg hx, if_pos (List.mem_cons_self _ _)]
        · rw [List.filter_cons_of_neg (by simpa using h), ih hrest]
          by_cases h2 : l ∈ rest
          · rw [if_pos h2, if_pos (List.mem_cons.mpr (Or.inr h2))]
          · rw [if_neg h2, if_neg (by simp [List.mem_cons, h2, Ne.symm h])]
  rw [hgen (jsSetDedup (activeLevels t)) (nodup_jsSetDedup _)]
  simp [mem_jsSetDedup]

/-- Folding single-factor payloads onto an existing entry appends the values. -/
lemma accF_sf_some : ∀ (us : List (String × (ℚ × ℚ))) (e : SFEntry),
    accF sfCombine (some e) us =
      some ⟨e.mfes ++ us.map (fun u => u.2.1), e.maes ++ us.map (fun u => u.2.2)⟩ := by
  intro us
  induction us with
  | nil => intro e; simp [accF_nil]
  | cons u rest ih =>
      intro e
      rw [accF_cons, ih]
      simp [sfCombine]

/-- The accumulated single-factor entry over a payload list from scratch. -/
lemma accF_sf_eval : ∀ us : List (String × (ℚ × ℚ)),
    accF sfCombine none us =
      if us = [] then none
      else some ⟨us.map (fun u => u.2.1), us.map (fun u => u.2.2)⟩ := by
  intro us
  cases us with
  | nil => rfl
  | cons u rest =>
      rw [accF_cons, accF_sf_some, if_neg (List.cons_ne_nil _ _)]
      simp [sfCombine]

/-- The fully built statsMap of calculateSingleFactorStats: the entry of a
level is exactly the mfe/mae value lists of the trades carrying that level,
in trade order, and is absent when no trade carries it. -/
lemma sfMap_lookup (trades : List Trade) (l : String) :
    alookup l (sfMap trades) =
      if sfContrib l trades = [] then none
      else some ⟨(sfContrib l trades).map (fun t => t.mfe),
        (sfContrib l trades).map (fun t => t.mae)⟩ := by
  unfold sfMap
  rw [foldl_inner, alookup_foldl_mapStep]
  have h0 : alookup l ([] : List (String × SFEntry)) = none := rfl
  rw [h0, filter_flatList]
  rw [flatList_ite_singleton (fun t => l ∈ activeLevels t)
    (fun t => (l, (t.mfe, t.mae))) _ trades (fun t _ => sfUpdates_filter t l)]
  rw [accF_sf_eval]
  unfold sfContrib
  by_cases hc : trades.filter (fun t => decide (l ∈ activeLevels t)) = []
  · rw [hc]
    simp
  · rw [if_neg (by simpa using hc), if_neg hc]
    simp [List.map_map, Function.comp]

/-- The statsMap keys are distinct. -/
lemma nodup_akeys_sfMap (trades : List Trade) : (akeys (sfMap trades)).Nodup := by
  unfold sfMap
  rw [foldl_inner]
  exact nodup_akeys_foldl_mapStep _ _ _ (by simp [akeys])

/-- Every stored statsMap entry is the value-list pair of its level's
contributing trades. -/
lemma mem_sfMap_eval (trades : List Trade) (kv : String × SFEntry)
    (h : kv ∈ sfMap trades) :
    sfContrib kv.1 trades ≠ [] ∧
      kv.2 = ⟨(sfContrib kv.1 trades).map (fun t => t.mfe),
        (sfContrib kv.1 trades).map (fun t => t.mae)⟩ := by
  have hl := alookup_eq_some_of_mem _ kv (nodup_akeys_sfMap trades) h
  rw [sfMap_lookup] at hl
  by_cases hc : sfContrib kv.1 trades = []
  · rw [if_pos hc] at hl
    cases hl
  · rw [if_neg hc] at hl
    exact ⟨hc, (Option.some.inj hl).symm⟩

end SingleFactorMachinery

/-- C6: every row of calculateSingleFactorStats aggregates exactly the trades
carrying its level among their distinct active levels -- count, average MFE
and MAE, medians (standard even/odd median over the sorted copy) and score =
avgMfe - avgMae; the rows are sorted descending by average MFE, a level has a
row exactly when some trade carries it, and the spec's three-trade example
yields level A with count 3 and avgMfe 12 and level B with count 2 and
avgMfe 8. -/
theorem C6_singleFactor_stats (trades : List Trade) :
    (∀ r ∈ calculateSingleFactorStats trades,
      r.count = (sfContrib r.level trades).length ∧ 1 ≤ r.count ∧
      r.avgMfe = ((sfContrib r.level trades).map (fun t => t.mfe)).sum /
        ((sfContrib r.level trades).length : ℚ) ∧
      r.avgMae = ((sfContrib r.level trades).map (fun t => t.mae)).sum /
        ((sfContrib r.level trades).length : ℚ) ∧
      r.medianMfe = calculateMedian ((sfContrib r.level trades).map (fun t => t.mfe)) ∧
      r.medianMae = calculateMedian ((sfContrib r.level trades).map (fun t => t.mae)) ∧
      r.score = r.avgMfe - r.avgMae) ∧
    (∀ l : String, (∃ r ∈ calculateSingleFactorStats trades, r.level = l) ↔
      ∃ t ∈ trades, l ∈ activeLevels t) ∧
    List.Sorted byAvgMfeDesc (calculateSingleFactorStats trades) ∧
    (∀ (xs : List ℚ) (k : ℕ),
      (xs.length = 2 * k + 1 →
        calculateMedian xs = (xs.insertionSort (· ≤ ·)).getD k 0) ∧
      (xs.length = 2 * k + 2 →
        calculateMedian xs = ((xs.insertionSort (· ≤ ·)).getD k 0 +
          (xs.insertionSort (· ≤ ·)).getD (k + 1) 0) / 2)) ∧
    (calculateSingleFactorStats sfExTrades).map (fun r => (r.level, r.count, r.avgMfe)) =
      [("A", 3, 12), ("B", 2, 8)] := by
  refine ⟨?_, ?_, List.sorted_insertionSort _ _, ?_, ?_⟩
  · intro r hr
    have hr2 : r ∈ (sfMap trades).map sfRow :=
      (List.perm_insertionSort byAvgMfeDesc _).mem_iff.mp hr
    obtain ⟨kv, hkv, hrow⟩ := List.mem_map.mp hr2
    obtain ⟨hne, hval⟩ := mem_sfMap_eval trades kv hkv
    obtain ⟨kl, ke⟩ := kv
    simp only at hval
    subst hval
    subst hrow
    have hlev : (sfRow (kl, ⟨(sfContrib kl trades).map (fun t => t.mfe),
        (sfContrib kl trades).map (fun t => t.mae)⟩)).level = kl := rfl
    rw [hlev]
    have hpos : 1 ≤ (sfContrib kl trades).length :=
      Nat.one_le_iff_ne_zero.mpr (fun hc => hne (List.length_eq_zero.mp hc))
    refine ⟨by simp [sfRow], by simpa [sfRow] using hpos, ?_, ?_, ?_, ?_, ?_⟩ <;>
      simp [sfRow, List.length_map]
  · intro l
    constructor
    · rintro ⟨r, hr, hlev⟩
      have hr2 : r ∈ (sfMap trades).map sfRow :=
        (List.perm_insertionSort byAvgMfeDesc _).mem_iff.mp hr
      obtain ⟨kv, hkv, hrow⟩ := List.mem_map.mp hr2
      obtain ⟨hne, _⟩ := mem_sfMap_eval trades kv hkv
      obtain ⟨t, ht⟩ := List.exists_mem_of_ne_nil _ hne
      have htf := List.mem_filter.mp ht
      refine ⟨t, htf.1, ?_⟩
      have hlk : r.level = kv.1 := by rw [← hrow]; rfl
      have := htf.2
      rw [← hlk, hlev] at this
      simpa using this
    · rintro ⟨t, ht, hl⟩
      have hc : sfContrib l trades ≠ [] := by
        intro hc
        have := List.filter_eq_nil_iff.mp hc t ht
        simp [hl] at this
      have hlook := sfMap_lookup trades l
      rw [if_neg hc] at hlook
      have hmem := mem_of_alookup_eq_some _ _ _ hlook
      refine ⟨sfRow (l, ⟨(sfContrib l trades).map (fun t => t.mfe),
        (sfContrib l trades).map (fun t => t.mae)⟩), ?_, rfl⟩
      exact (List.perm_insertionSort byAvgMfeDesc _).mem_iff.mpr
        (List.mem_map_of_mem sfRow hmem)
  · intro xs k
    have hslen : (xs.insertionSort (· ≤ ·)).length = xs.length :=
      (List.perm_insertionSort _ _).length_eq
    constructor
    · intro hlen
      have hx : xs ≠ [] := by
        intro hc
        rw [hc] at hlen
        simp at hlen
      unfold calculateMedian
      rw [if_neg hx, hslen, hlen, if_pos (by omega : ¬ (2 * k + 1) % 2 = 0)]
      have hidx : (2 * k + 1) / 2 = k := by omega
      rw [hidx]
    · intro hlen
      have hx : xs ≠ [] := by
        intro hc
        rw [hc] at hlen
        simp at hlen
      unfold calculateMedian
      rw [if_neg hx, hslen, hlen, if_neg (by omega : ¬ ¬ (2 * k + 2) % 2 = 0)]
      have hidx : (2 * k + 2) / 2 = k + 1 := by omega
      have hidx2 : (2 * k + 2) / 2 - 1 = k := by omega
      rw [hidx2, hidx]
  · simp +decide [calculateSingleFactorStats, sfMap, sfUpdates, sfCombine,
      sfExTrades, mkTrade, activeLevels, jsSetDedup, mapStep, aset, alookup,
      sfRow, calculateMedian, byAvgMfeDesc, List.insertionSort, List.orderedInsert]
    norm_num

/-- C6 witness: the end-to-end example instantiated through the theorem. -/
theorem C6_singleFactor_witness :
    (calculateSingleFactorStats sfExTrades).map (fun r => (r.level, r.count, r.avgMfe)) =
      [("A", 3, 12), ("B", 2, 8)] :=
  (C6_singleFactor_stats sfExTrades).2.2.2.2

section PairMachinery

/-- Folding pair payloads onto an existing entry: the count grows by the
number of payloads, and the stored pair is the last payload's (or unchanged
when there is none). -/
lemma accF_pair_some : ∀ (us : List (String × ((String × String) × ℚ)))
    (c : PairEntry),
    ∃ v, accF pairCombine (some c) us = some v ∧
      v.count = c.count + us.length ∧
      (us = [] → v = c) ∧
      (us ≠ [] → (v.p1, v.p2) ∈ us.map (fun u => u.2.1)) := by
  intro us
  induction us with
  | nil =>
      intro c
      exact ⟨c, rfl, by simp, fun _ => rfl, fun h => absurd rfl h⟩
  | cons u rest ih =>
      intro c
      rw [accF_cons]
      obtain ⟨v, hv, hcount, hnil, hmem⟩ := ih (pairCombine (some c) u.2)
      refine ⟨v, hv, ?_, ?_, ?_⟩
      · rw [hcount]
        simp [pairCombine]
        omega
      · intro h
        exact absurd h (List.cons_ne_nil _ _)
      · intro _
        by_cases hrest : rest = []
        · subst hrest
          have hvc := hnil rfl
          subst hvc
          simp [pairCombine]
        · exact List.mem_cons_of_mem _ (hmem hrest)

/-- The accumulated pair entry from scratch: count is the number of payloads
and the stored pair is one of the payload pairs. -/
lemma accF_pair_none (us : List (String × ((String × String) × ℚ)))
    (v : PairEntry) (h : accF pairCombine none us = some v) :
    v.count = us.length ∧ (v.p1, v.p2) ∈ us.map (fun u => u.2.1) := by
  cases us with
  | nil => cases h
  | cons u rest =>
      rw [accF_cons] at h
      obtain ⟨w, hw, hcount, hnil, hmem⟩ := accF_pair_some rest (pairCombine none u.2)
      rw [hw] at h
      have hv : w = v := Option.some.inj h
      subst hv
      constructor
      · rw [hcount]
        simp [pairCombine]
        omega
      · by_cases hrest : rest = []
        · subst hrest
          have hvc := hnil rfl
          subst hvc
          simp [pairCombine]
        · exact List.mem_cons_of_mem _ (hmem hrest)

/-- The pairMap keys are distinct. -/
lemma nodup_akeys_pairMap (trades : List Trade) :
    (akeys (pairMap trades)).Nodup := by
  unfold pairMap
  rw [foldl_inner]
  exact nodup_akeys_foldl_mapStep _ _ _ (by simp [akeys])

/-- Every pairMap entry counts exactly the updates carrying its key, and
stores one of their pairs. -/
lemma pairMap_entry (trades : List Trade) (kv : String × PairEntry)
    (h : kv ∈ pairMap trades) :
    kv.2.count = ((flatList pairUpdates trades).filter
      (fun u => decide (u.1 = kv.1))).length ∧
    (kv.2.p1, kv.2.p2) ∈ ((flatList pairUpdates trades).filter
      (fun u => decide (u.1 = kv.1))).map (fun u => u.2.1) := by
  have hl := alookup_eq_some_of_mem _ kv (nodup_akeys_pairMap trades) h
  unfold pairMap at hl
  rw [foldl_inner, alookup_foldl_mapStep] at hl
  have h0 : alookup kv.1 ([] : List (String × PairEntry)) = none := rfl
  rw [h0] at hl
  exact accF_pair_none _ _ hl

/-- Every flattened pair update is keyed by its own pair and generated by
some trade. -/
lemma mem_flatList_pairUpdates (trades : List Trade)
    (u : String × ((String × String) × ℚ))
    (h : u ∈ flatList pairUpdates trades) :
    u.1 = pairKey u.2.1.1 u.2.1.2 ∧ ∃ t ∈ trades, u.2.1 ∈ tradePairs t := by
  obtain ⟨t, ht, hu⟩ := (mem_flatList _ _ _).mp h
  unfold pairUpdates at hu
  obtain ⟨p, hp, hup⟩ := List.mem_map.mp hu
  subst hup
  exact ⟨rfl, t, ht, hp⟩

/-- Pair components are active levels of the generating trade. -/
lemma tradePairs_mem_active (t : Trade) (p : String × String)
    (hp : p ∈ tradePairs t) :
    p.1 ∈ activeLevels t ∧ p.2 ∈ activeLevels t := by
  have h := mem_of_mem_listPairs _ p hp
  have hperm : activeSorted t ~ activeLevels t := List.perm_insertionSort _ _
  exact ⟨hperm.mem_iff.mp h.1, hperm.mem_iff.mp h.2⟩

/-- The pairs generated by a duplicate-free trade are pairwise distinct. -/
lemma nodup_tradePairs (t : Trade) (h : (activeLevels t).Nodup) :
    (tradePairs t).Nodup := by
  have hperm : activeSorted t ~ activeLevels t := List.perm_insertionSort _ _
  exact nodup_listPairs _ (pairwise_lt_of_sorted_nodup _
    (List.sorted_insertionSort _ _) (hperm.nodup_iff.mpr h))

/-- Per trade, the number of updates keyed like (A,B) is an indicator of the
trade exhibiting the pair, provided levels are duplicate-free and bar-free. -/
lemma countP_pairUpdates (t : Trade) (A B : String)
    (hnd : (activeLevels t).Nodup)
    (hbar : ∀ l ∈ activeLevels t, ('|' : Char) ∉ l.data)
    (hA : ('|' : Char) ∉ A.data) :
    (pairUpdates t).countP (fun u => decide (u.1 = pairKey A B)) =
      if (A, B) ∈ tradePairs t then 1 else 0 := by
  unfold pairUpdates
  rw [List.countP_map]
  have hcongr : ∀ p ∈ tradePairs t,
      (((fun u => decide (u.1 = pairKey A B)) ∘
          (fun p => (pairKey p.1 p.2, (p, t.mfe)))) p = true ↔
        ((fun p => decide (p = (A, B))) p = true)) := by
    intro p hp
    simp only [Function.comp, decide_eq_true_eq]
    constructor
    · intro hkey
      obtain ⟨hp1, hp2⟩ := pairKey_inj p.1 p.2 A B
        (hbar p.1 (tradePairs_mem_active t p hp).1) hA hkey
      exact Prod.ext hp1 hp2
    · intro hp2
      rw [hp2]
  rw [List.countP_congr hcongr]
  rw [countP_eq_ite (tradePairs t) (nodup_tradePairs t hnd) ((A, B))]
  by_cases hmem : (A, B) ∈ tradePairs t
  · rw [if_pos hmem, if_pos hmem]
  · rw [if_neg hmem, if_neg hmem]

end PairMachinery

/-- C4 counterexample: a single trade with levels [A, A, B] generates (A,B)
twice (no per-trade dedup), so although exactly one trade exhibits the pair,
calculatePairStats reports it with count 2. -/
theorem C4_pairStats_counterexample :
    calculatePairStats [tAAB] = [{ pair := ("A", "B"), avgMfe := 10, count := 2 }] ∧
    ([tAAB].countP (fun t => decide (("A", "B") ∈ tradePairs t))) = 1 := by
  constructor
  · simp +decide [calculatePairStats, pairMap, pairUpdates, tradePairs,
      activeSorted, activeLevels, tAAB, mkTrade, listPairs, mapStep, aset,
      alookup, pairCombine, pairKey, jsSetDedup, pairRow, byPairAvgMfeDesc,
      List.insertionSort, List.orderedInsert]
  · simp +decide [tradePairs, activeSorted, activeLevels, tAAB, mkTrade,
      listPairs, List.insertionSort, List.orderedInsert, List.countP_cons]

/-- C4 amended: provided every trade's active levels are pairwise distinct
and level labels contain no bar character (the map-key separator), a pair
exhibited by at most one trade does not appear in calculatePairStats;
unconditionally on those hypotheses' scope, every returned row has count at
least 2 and the rows are sorted descending by average MFE. -/
theorem C4_pairStats_amended (trades : List Trade) (A B : String)
    (h1 : ∀ t ∈ trades, (activeLevels t).Nodup)
    (h2 : ∀ t ∈ trades, ∀ l ∈ activeLevels t, ('|' : Char) ∉ l.data)
    (h3 : trades.countP (fun t => decide ((A, B) ∈ tradePairs t)) ≤ 1) :
    ((A, B) ∉ (calculatePairStats trades).map (fun r => r.pair)) ∧
    (∀ r ∈ calculatePairStats trades, 2 ≤ r.count) ∧
    List.Sorted byPairAvgMfeDesc (calculatePairStats trades) := by
  refine ⟨?_, ?_, List.sorted_insertionSort _ _⟩
  · intro hmem
    obtain ⟨r, hr, hpair⟩ := List.mem_map.mp hmem
    have hr2 : r ∈ ((pairMap trades).map pairRow).filter
        (fun r => decide (2 ≤ r.count)) :=
      (List.perm_insertionSort byPairAvgMfeDesc _).mem_iff.mp hr
    have hcount2 : 2 ≤ r.count := by simpa using (List.mem_filter.mp hr2).2
    obtain ⟨kv, hkv, hrow⟩ := List.mem_map.mp (List.mem_filter.mp hr2).1
    obtain ⟨hcnt, hstored⟩ := pairMap_entry trades kv hkv
    have hpr : (kv.2.p1, kv.2.p2) = (A, B) := by
      rw [← hpair, ← hrow]
      rfl
    obtain ⟨u, hu, hup⟩ := List.mem_map.mp hstored
    have humem := List.mem_of_mem_filter hu
    have hukey : u.1 = kv.1 := by simpa using (List.mem_filter.mp hu).2
    obtain ⟨hkeyu, t0, ht0, hpt0⟩ := mem_flatList_pairUpdates trades u humem
    have hupAB : u.2.1 = (A, B) := by rw [hup, hpr]
    have hkeyAB : kv.1 = pairKey A B := by
      rw [← hukey, hkeyu, hupAB]
    have hAbar : ('|' : Char) ∉ A.data := by
      have := (tradePairs_mem_active t0 u.2.1 hpt0).1
      rw [hupAB] at this
      exact h2 t0 ht0 A this
    have hABt0 : (A, B) ∈ tradePairs t0 := hupAB ▸ hpt0
    have hcount_eq : ((flatList pairUpdates trades).filter
        (fun u => decide (u.1 = kv.1))).length =
        trades.countP (fun t => decide ((A, B) ∈ tradePairs t)) := by
      rw [← List.countP_eq_length_filter, hkeyAB, countP_flatList]
      have hmapc : trades.map
          (fun t => (pairUpdates t).countP (fun u => decide (u.1 = pairKey A B))) =
          trades.map (fun t => if (A, B) ∈ tradePairs t then 1 else 0) :=
        List.map_congr_left (fun t ht =>
          countP_pairUpdates t A B (h1 t ht) (h2 t ht) hAbar)
      rw [hmapc, sum_map_ite_eq_countP]
    have hrcount : r.count = kv.2.count := by rw [← hrow]; rfl
    rw [hrcount, hcnt, hcount_eq] at hcount2
    omega
  · intro r hr
    have hr2 : r ∈ ((pairMap trades).map pairRow).filter
        (fun r => decide (2 ≤ r.count)) :=
      (List.perm_insertionSort byPairAvgMfeDesc _).mem_iff.mp hr
    simpa using (List.mem_filter.mp hr2).2

/-- C4 witness: on two duplicate-free trades where only the second exhibits
(A,C), the pair (A,C) is excluded from the output. -/
theorem C4_pairStats_witness :
    ("A", "C") ∉ (calculatePairStats wPairTrades).map (fun r => r.pair) := by
  refine (C4_pairStats_amended wPairTrades "A" "C" ?_ ?_ ?_).1
  · intro t ht
    simp only [wPairTrades, List.mem_cons, List.mem_singleton,
      List.not_mem_nil, or_false] at ht
    rcases ht with h | h <;> subst h <;> decide
  · intro t ht
    simp only [wPairTrades, List.mem_cons, List.mem_singleton,
      List.not_mem_nil, or_false] at ht
    rcases ht with h | h <;> subst h <;> decide
  · simp +decide [wPairTrades, tradePairs, activeSorted, activeLevels, mkTrade,
      listPairs, List.insertionSort, List.orderedInsert, List.countP_cons]

section HeatmapMachinery

/-- Folding heatmap payloads onto an existing accumulator adds the payload
sum and count. -/
lemma accF_heat_some : ∀ (us : List (String × ℚ)) (c : HeatAcc),
    accF heatCombine (some c) us =
      some ⟨c.totalMfe + (us.map (fun u => u.2)).sum, c.count + us.length⟩ := by
  intro us
  induction us with
  | nil => intro c; simp [accF_nil]
  | cons u rest ih =>
      intro c
      rw [accF_cons, ih]
      simp only [heatCombine, Option.getD_some, List.map_cons, List.sum_cons,
        List.length_cons, Option.some.injEq, HeatAcc.mk.injEq]
      exact ⟨by ring, by omega⟩

/-- The accumulated heatmap cell from scratch over a non-empty payload list. -/
lemma accF_heat_none (us : List (String × ℚ)) (hus : us ≠ []) :
    accF heatCombine none us =
      some ⟨(us.map (fun u => u.2)).sum, us.length⟩ := by
  cases us with
  | nil => exact absurd rfl hus
  | cons u rest =>
      rw [accF_cons, accF_heat_some]
      simp only [heatCombine, Option.getD_none, List.map_cons, List.sum_cons,
        List.length_cons, Option.some.injEq, HeatAcc.mk.injEq]
      exact ⟨by ring, by omega⟩

/-- The heat matrix keys are distinct. -/
lemma nodup_akeys_heatMatrix (xOf : Trade → Option String) (trades : List Trade) :
    (akeys (heatMatrix xOf trades)).Nodup := by
  unfold heatMatrix
  rw [foldl_inner]
  exact nodup_akeys_foldl_mapStep _ _ _ (by simp [akeys])

/-- Looking up any key in the heat matrix accumulates exactly the updates
carrying that key. -/
lemma heatMatrix_lookup (xOf : Trade → Option String) (trades : List Trade)
    (k : String) :
    alookup k (heatMatrix xOf trades) =
      accF heatCombine none ((flatList (heatUpdates xOf) trades).filter
        (fun u => decide (u.1 = k))) := by
  unfold heatMatrix
  rw [foldl_inner, alookup_foldl_mapStep]
  rfl

/-- Every heatmap update payload is the mfe of its trade. -/
lemma mem_heatUpdates_mfe (xOf : Trade → Option String) (t : Trade)
    (u : String × ℚ) (h : u ∈ heatUpdates xOf t) : u.2 = t.mfe := by
  unfold heatUpdates at h
  cases hxt : xOf t with
  | none => rw [hxt] at h; cases h
  | some x =>
      rw [hxt] at h
      obtain ⟨l, _, hu⟩ := List.mem_map.mp h
      rw [← hu]

/-- The heatmap updates of one trade, filtered to the key of cell (y, x):
a singleton exactly when the trade has x as its category and carries level y
(requires colon-free, duplicate-free levels). -/
lemma heatUpdates_filter (xOf : Trade → Option String) (t : Trade) (y x : String)
    (hnd : (activeLevels t).Nodup)
    (hybar : ∀ l ∈ activeLevels t, (':' : Char) ∉ l.data)
    (hy : (':' : Char) ∉ y.data) :
    (heatUpdates xOf t).filter (fun u => decide (u.1 = hkey y x)) =
      if xOf t = some x ∧ y ∈ activeLevels t then [(hkey y x, t.mfe)] else [] := by
  unfold heatUpdates
  cases hxt : xOf t with
  | none => simp
  | some x2 =>
      by_cases hx2 : x2 = x
      · subst hx2
        have hgen : ∀ xs : List String, xs.Nodup →
            (∀ l ∈ xs, (':' : Char) ∉ l.data) →
            ((xs.map (fun l => (hkey l x2, t.mfe))).filter
              (fun u => decide (u.1 = hkey y x2))) =
              if y ∈ xs then [(hkey y x2, t.mfe)] else [] := by
          intro xs
          induction xs with
          | nil => intro _ _; rfl
          | cons z rest ih =>
              intro hnd2 hbar2
              rcases List.nodup_cons.mp hnd2 with ⟨hz, hrest⟩
              rw [List.map_cons]
              by_cases hzy : z = y
              · subst hzy
                rw [List.filter_cons_of_pos (by simp),
                  ih hrest (fun l hl => hbar2 l (List.mem_cons_of_mem _ hl)),
                  if_neg hz, if_pos (List.mem_cons_self _ _)]
              · have hkne : ¬ hkey z x2 = hkey y x2 := by
                  intro hc
                  exact hzy (hkey_inj z x2 y x2
                    (hbar2 z (List.mem_cons_self _ _)) hy hc).1
                rw [List.filter_cons_of_neg (by simpa using hkne),
                  ih hrest (fun l hl => hbar2 l (List.mem_cons_of_mem _ hl))]
                by_cases h2 : y ∈ rest
                · rw [if_pos h2, if_pos (List.mem_cons.mpr (Or.inr h2))]
                · rw [if_neg h2, if_neg (by simp [List.mem_cons, h2, Ne.symm hzy])]
        rw [hgen (activeLevels t) hnd hybar]
        simp
      · have hfil : ((activeLevels t).map (fun l => (hkey l x2, t.mfe))).filter
            (fun u => decide (u.1 = hkey y x)) = [] := by
          rw [List.filter_eq_nil_iff]
          intro u hu
          obtain ⟨l, hl, hul⟩ := List.mem_map.mp hu
          subst hul
          simp only [decide_eq_true_eq]
          intro hc
          exact hx2 (hkey_inj l x2 y x (hybar l hl) hy hc).2
        rw [hfil, if_neg]
        rintro ⟨hsome, _⟩
        exact hx2 (Option.some.inj hsome)

/-- Looking up a value-mapped association list maps the looked-up value. -/
lemma alookup_map_value {V W : Type} (g : V → W) (m : List (String × V))
    (k : String) :
    alookup k (m.map (fun kv => (kv.1, g kv.2))) = (alookup k m).map g := by
  induction m with
  | nil => rfl
  | cons kv rest ih =>
      obtain ⟨k1, v1⟩ := kv
      by_cases h : k1 = k
      · simp [alookup, h]
      · simp [alookup, h, ih]

/-- The grid cell of (y, x): present exactly when some trade contributes, and
then carrying the mean MFE and the count of the contributing trades. -/
lemma heatGrid_lookup (xOf : Trade → Option String) (trades : List Trade)
    (y x : String)
    (h1 : ∀ t ∈ trades, (activeLevels t).Nodup)
    (h2 : ∀ t ∈ trades, ∀ l ∈ activeLevels t, (':' : Char) ∉ l.data)
    (hy : (':' : Char) ∉ y.data) :
    alookup (hkey y x) (heatGrid xOf trades) =
      (if trades.filter (fun t => decide (xOf t = some x ∧ y ∈ activeLevels t)) = []
       then none
       else some ⟨(((trades.filter
            (fun t => decide (xOf t = some x ∧ y ∈ activeLevels t))).map
            (fun t => t.mfe)).sum) /
          (((trades.filter
            (fun t => decide (xOf t = some x ∧ y ∈ activeLevels t))).length : ℚ)),
          (trades.filter
            (fun t => decide (xOf t = some x ∧ y ∈ activeLevels t))).length⟩) := by
  unfold heatGrid
  rw [alookup_map_value
    (fun v : HeatAcc => (⟨v.totalMfe / (v.count : ℚ), v.count⟩ : HeatCell))
    (heatMatrix xOf trades) (hkey y x)]
  rw [heatMatrix_lookup, filter_flatList]
  rw [flatList_ite_singleton (fun t => xOf t = some x ∧ y ∈ activeLevels t)
    (fun t => (hkey y x, t.mfe)) _ trades
    (fun t ht => heatUpdates_filter xOf t y x (h1 t ht) (h2 t ht) hy)]
  by_cases hc : trades.filter (fun t => decide (xOf t = some x ∧ y ∈ activeLevels t)) = []
  · rw [hc, if_pos rfl]
    rfl
  · rw [if_neg hc, accF_heat_none _ (by simpa using hc)]
    simp [List.map_map, Function.comp, Function.comp_def]

/-- Every heat matrix entry has a non-negative total (for non-negative MFE
inputs) and a positive count. -/
lemma heatMatrix_entry_pos (xOf : Trade → Option String) (trades : List Trade)
    (h0 : ∀ t ∈ trades, 0 ≤ t.mfe) (kv : String × HeatAcc)
    (h : kv ∈ heatMatrix xOf trades) :
    0 ≤ kv.2.totalMfe ∧ 1 ≤ kv.2.count := by
  have hl := alookup_eq_some_of_mem _ kv (nodup_akeys_heatMatrix xOf trades) h
  rw [heatMatrix_lookup] at hl
  by_cases hc : (flatList (heatUpdates xOf) trades).filter
      (fun u => decide (u.1 = kv.1)) = []
  · rw [hc] at hl
    cases hl
  · rw [accF_heat_none _ hc] at hl
    have hv := (Option.some.inj hl).symm
    have hmfe : ∀ u ∈ (flatList (heatUpdates xOf) trades).filter
        (fun u => decide (u.1 = kv.1)), (0 : ℚ) ≤ u.2 := by
      intro u hu
      obtain ⟨t, ht, hut⟩ := (mem_flatList _ _ _).mp (List.mem_of_mem_filter hu)
      rw [mem_heatUpdates_mfe xOf t u hut]
      exact h0 t ht
    constructor
    · rw [hv]
      exact List.sum_nonneg (fun a ha => by
        obtain ⟨u, hu, hua⟩ := List.mem_map.mp ha
        rw [← hua]
        exact hmfe u hu)
    · rw [hv]
      exact Nat.one_le_iff_ne_zero.mpr
        (fun hz => hc (List.length_eq_zero.mp hz))

end HeatmapMachinery

/-- Elements mapped to none by the extractor can be dropped before
filterMap. -/
lemma filterMap_filter_of_none {α β : Type} (P : α → Prop) [DecidablePred P]
    (f : α → Option β) (hf : ∀ a, ¬ P a → f a = none) :
    ∀ l : List α, l.filterMap f = (l.filter (fun a => decide (P a))).filterMap f := by
  intro l
  induction l with
  | nil => rfl
  | cons a rest ih =>
      by_cases hP : P a
      · rw [List.filter_cons_of_pos (by simpa using hP)]
        cases hfa : f a with
        | none =>
            rw [List.filterMap_cons_none hfa, List.filterMap_cons_none hfa, ih]
        | some b =>
            rw [List.filterMap_cons_some hfa, List.filterMap_cons_some hfa, ih]
      · rw [List.filter_cons_of_neg (by simpa using hP),
          List.filterMap_cons_none (hf a hP), ih]

/-- The entry-type heatmap ignores trades with an empty entry type entirely:
cells, labels and maxMfe are unchanged by dropping them. -/
lemma heatmap_excludes_empty_entry (trades : List Trade) :
    calculateHeatmapStats trades =
      calculateHeatmapStats (trades.filter (fun t => decide (t.entryType ≠ ""))) := by
  have hxof : ∀ t : Trade, ¬ (t.entryType ≠ "") → xOfEntry t = none := by
    intro t ht
    simp [xOfEntry, not_ne_iff.mp ht]
  have hupd : ∀ t : Trade, ¬ (t.entryType ≠ "") → heatUpdates xOfEntry t = [] := by
    intro t ht
    unfold heatUpdates
    rw [hxof t ht]
  have hmatrix : heatMatrix xOfEntry trades =
      heatMatrix xOfEntry (trades.filter (fun t => decide (t.entryType ≠ ""))) := by
    unfold heatMatrix
    rw [foldl_inner, foldl_inner,
      flatList_filter_of_nil (fun t => t.entryType ≠ "") _ hupd trades]
  have hx : heatXRaw xOfEntry trades =
      heatXRaw xOfEntry (trades.filter (fun t => decide (t.entryType ≠ ""))) := by
    unfold heatXRaw
    rw [filterMap_filter_of_none (fun t => t.entryType ≠ "") xOfEntry hxof trades]
  have hyr : heatYRaw xOfEntry trades =
      heatYRaw xOfEntry (trades.filter (fun t => decide (t.entryType ≠ ""))) := by
    unfold heatYRaw
    rw [flatList_filter_of_nil (fun t => t.entryType ≠ "") _
      (fun t ht => by simp [hxof t ht]) trades]
  unfold calculateHeatmapStats heatGrid heatMax
  rw [hmatrix, hx, hyr]

/-- C2 counterexample: one trade with duplicated level A and entry type T
yields the cell (A, T) with count 2, although only one trade contributes to
that combination (the heatmaps do not deduplicate a trade's levels). -/
theorem C2_heatmap_counterexample :
    alookup (hkey ("A") ("T")) (calculateHeatmapStats [tAAT]).grid =
      some { avgMfe := 10, count := 2 } ∧
    ([tAAT].filter (fun t => decide (xOfEntry t = some ("T") ∧
      ("A") ∈ activeLevels t))).length = 1 := by
  constructor
  · simp +decide [calculateHeatmapStats, heatGrid, heatMatrix, heatUpdates,
      heatCombine, xOfEntry, tAAT, mkTrade, activeLevels, hkey, mapStep, aset,
      alookup, foldl_inner]
  · simp +decide [tAAT, mkTrade, xOfEntry, activeLevels, List.filter]

/-- C2 amended: for any x-axis extractor, provided each trade's active levels
are pairwise distinct and level labels contain no colon (the grid-key
separator), the grid cell of (y, x) exists exactly when some trade
contributes to that combination and then carries the arithmetic mean of the
contributing trades' MFE and their count; every cell's average is bounded by
maxMfe and its count is at least 1; for non-negative MFE inputs, maxMfe is 0
when no cell is populated and otherwise is attained by a populated cell; the
three named heatmaps instantiate this grid; and a trade with an empty entry
type contributes to no cell and no label of the entry-type heatmap. -/
theorem C2_heatmap_amended (xOf : Trade → Option String) (trades : List Trade)
    (h1 : ∀ t ∈ trades, (activeLevels t).Nodup)
    (h2 : ∀ t ∈ trades, ∀ l ∈ activeLevels t, (':' : Char) ∉ l.data)
    (h0 : ∀ t ∈ trades, 0 ≤ t.mfe) :
    (∀ y x : String, (':' : Char) ∉ y.data →
      alookup (hkey y x) (heatGrid xOf trades) =
        (if trades.filter (fun t => decide (xOf t = some x ∧ y ∈ activeLevels t)) = []
         then none
         else some ⟨(((trades.filter
              (fun t => decide (xOf t = some x ∧ y ∈ activeLevels t))).map
              (fun t => t.mfe)).sum) /
            (((trades.filter
              (fun t => decide (xOf t = some x ∧ y ∈ activeLevels t))).length : ℚ)),
            (trades.filter
              (fun t => decide (xOf t = some x ∧ y ∈ activeLevels t))).length⟩)) ∧
    (∀ kv ∈ heatGrid xOf trades,
      kv.2.avgMfe ≤ heatMax xOf trades ∧ 1 ≤ kv.2.count) ∧
    (heatGrid xOf trades = [] → heatMax xOf trades = 0) ∧
    (heatGrid xOf trades ≠ [] →
      ∃ kv ∈ heatGrid xOf trades, heatMax xOf trades = kv.2.avgMfe) ∧
    ((calculateHeatmapStats trades).grid = heatGrid xOfEntry trades ∧
      (calculateSessionLevelHeatmap trades).grid = heatGrid xOfSession trades ∧
      (calculateDeltaLevelHeatmap trades).grid = heatGrid xOfDelta trades) ∧
    calculateHeatmapStats trades =
      calculateHeatmapStats (trades.filter (fun t => decide (t.entryType ≠ ""))) := by
  have hmaxdef : heatMax xOf trades =
      (heatMatrix xOf trades).foldl
        (fun mx kv => if mx < kv.2.totalMfe / (kv.2.count : ℚ)
          then kv.2.totalMfe / (kv.2.count : ℚ) else mx) 0 := rfl
  obtain ⟨hinit, hdom, hatt⟩ :=
    jsMax_spec (fun kv : String × HeatAcc => kv.2.totalMfe / (kv.2.count : ℚ))
      (heatMatrix xOf trades) 0
  have hcellpos : ∀ kv ∈ heatMatrix xOf trades,
      (0 : ℚ) ≤ kv.2.totalMfe / (kv.2.count : ℚ) := by
    intro kv hkv
    obtain ⟨hnum, _⟩ := heatMatrix_entry_pos xOf trades h0 kv hkv
    exact div_nonneg hnum (Nat.cast_nonneg _)
  refine ⟨fun y x hy => heatGrid_lookup xOf trades y x h1 h2 hy, ?_, ?_, ?_,
    ⟨rfl, rfl, rfl⟩, heatmap_excludes_empty_entry trades⟩
  · intro kv hkv
    obtain ⟨mkv, hmkv, hmap⟩ := List.mem_map.mp hkv
    constructor
    · have hle := hdom mkv hmkv
      rw [hmaxdef, ← hmap]
      exact hle
    · obtain ⟨_, hcnt⟩ := heatMatrix_entry_pos xOf trades h0 mkv hmkv
      rw [← hmap]
      exact hcnt
  · intro hg
    have hm : heatMatrix xOf trades = [] := by
      unfold heatGrid at hg
      exact List.map_eq_nil_iff.mp hg
    rw [hmaxdef, hm]
    rfl
  · intro hg
    have hm : heatMatrix xOf trades ≠ [] := by
      intro hc
      unfold heatGrid at hg
      rw [hc] at hg
      exact hg rfl
    rcases hatt with hatt | ⟨a, ha, hatt⟩
    · cases hmm : heatMatrix xOf trades with
      | nil => exact absurd hmm hm
      | cons m0 rest =>
          have hm0 : m0 ∈ heatMatrix xOf trades := by
            rw [hmm]
            exact List.mem_cons_self _ _
          have hge : m0.2.totalMfe / (m0.2.count : ℚ) ≤ 0 := by
            rw [← hatt]
            exact hdom m0 hm0
          have heq : m0.2.totalMfe / (m0.2.count : ℚ) = 0 :=
            le_antisymm hge (hcellpos m0 hm0)
          refine ⟨(m0.1, ⟨m0.2.totalMfe / (m0.2.count : ℚ), m0.2.count⟩), ?_, ?_⟩
          · exact List.mem_map.mpr ⟨m0, hm0, rfl⟩
          · rw [hmaxdef, hatt, heq]
    · refine ⟨(a.1, ⟨a.2.totalMfe / (a.2.count : ℚ), a.2.count⟩), ?_, ?_⟩
      · exact List.mem_map.mpr ⟨a, ha, rfl⟩
      · rw [hmaxdef, hatt]

/-- C2 witness: the cell characterization instantiated at the concrete
two-trade list, cell (A, T) -- both trades contribute, mean 7, count 2. -/
theorem C2_heatmap_witness :
    alookup (hkey ("A") ("T")) (heatGrid xOfEntry wHeatTrades) =
      (if wHeatTrades.filter
          (fun t => decide (xOfEntry t = some ("T") ∧ ("A") ∈ activeLevels t)) = []
       then none
       else some ⟨(((wHeatTrades.filter
            (fun t => decide (xOfEntry t = some ("T") ∧ ("A") ∈ activeLevels t))).map
            (fun t => t.mfe)).sum) /
          (((wHeatTrades.filter
            (fun t => decide (xOfEntry t = some ("T") ∧ ("A") ∈ activeLevels t))).length : ℚ)),
          (wHeatTrades.filter
            (fun t => decide (xOfEntry t = some ("T") ∧ ("A") ∈ activeLevels t))).length⟩) :=
  (C2_heatmap_amended xOfEntry wHeatTrades
    (by
      intro t ht
      simp only [wHeatTrades, List.mem_cons, List.not_mem_nil, or_false] at ht
      rcases ht with h | h <;> subst h <;> decide)
    (by
      intro t ht
      simp only [wHeatTrades, List.mem_cons, List.not_mem_nil, or_false] at ht
      rcases ht with h | h <;> subst h <;> decide)
    (by
      intro t ht
      simp only [wHeatTrades, List.mem_cons, List.not_mem_nil, or_false] at ht
      rcases ht with h | h <;> subst h <;> norm_num [mkTrade])).1
    ("A") ("T") (by decide)

/-- C8 witness: hour 7 is classified S1. -/
theorem C8_sessionFromHour_witness : sessionFromHour 7 = "S1" :=
  (C8_sessionFromHour_partition ⟨7, by decide⟩).2.1.mpr (by decide)

/-- C9 witness: the magnitude identity at 7, and the two boundary values. -/
theorem C9_deltaCategory_witness :
    getDeltaCategory (-7) = getDeltaCategory 7 ∧
    getDeltaCategory 7 = DeltaCategory.LOW ∧
    getDeltaCategory 20 = DeltaCategory.HIGH :=
  ⟨(C9_deltaCategory_magnitude 7).1, (C9_deltaCategory_magnitude 7).2.2.2.2.1,
    (C9_deltaCategory_magnitude 7).2.2.2.2.2⟩

end FwdTest
